import Mathlib

/-!
Verification development for the aesara expression-graph compilation pipeline.

The visible source file (`aesara/__init__.py`) is the orchestration façade; it
contains the `as_symbolic` conversion helper, which is embedded directly below.
The graph model, rewrite engine, scheduler/linker and function compiler are the
core the specification describes but are not part of the visible sources, so
they are modelled from the specification text (each such definition carries a
doc comment starting with `Modelled from the spec:`).
-/

namespace AesaraSpec

/-- Position of the first occurrence of `n` in a list of indices. -/
def posOf : List Nat → Nat → Option Nat
  | [], _ => none
  | x :: xs, n => if x = n then some 0 else (posOf xs n).map (· + 1)

/-- Boolean membership test on index lists. -/
def memB : List Nat → Nat → Bool
  | [], _ => false
  | x :: xs, n => if x = n then true else memB xs n

/-- First-hit association-list lookup. -/
def alook {α : Type} : List (Nat × α) → Nat → Option α
  | [], _ => none
  | p :: ps, n => if p.1 = n then some p.2 else alook ps n

/-- Type descriptor: describes the structural kind of values a variable holds. -/
inductive Ty where
  | tnat
  | tbool
deriving DecidableEq

/-- Concrete runtime values carried along graph edges. -/
inductive Value where
  | vnat (n : Nat)
  | vbool (b : Bool)
deriving DecidableEq

/-- The type descriptor of a concrete value. -/
def Value.ty : Value → Ty
  | .vnat _ => .tnat
  | .vbool _ => .tbool

/-- Modelled from the spec: an operation kind from the operation-kind registry,
a pure stateless descriptor exposing a name and an executor mapping input
values to the output value (the numeric back end is external; a single output
per operation instance is modelled). -/
structure OpKind where
  opName : String
  exec : List Value → Value

/-- Modelled from the spec: one arena slot of the graph.  A `Variable` is
either a leaf with no owner (`free`, carrying its type descriptor), a leaf with
a bound constant value (`const`), or owned by an `Apply` node (`app`), in which
case the slot records the operation kind and the ordered input variables of
that `Apply` (single-output `Apply` nodes are collapsed into the variable they
produce, following the arena/handle design note of the spec). -/
inductive VarDef where
  | free (t : Ty)
  | const (v : Value)
  | app (op : OpKind) (args : List Nat)

/-- The input indices referenced by an arena slot. -/
def VarDef.argsOf : VarDef → List Nat
  | .app _ args => args
  | _ => []

/-- Modelled from the spec: a graph is an arena of nodes addressed by stable
integer handles (insertion order), together with the declared input and output
variables; the graph proper is whatever is reachable walking backward from the
outputs, with the declared inputs treated as leaves. -/
structure Graph where
  store : List VarDef
  inputs : List Nat
  outputs : List Nat

/-- Modelled from the spec: failure taxonomy for construction, cloning and
scheduling (each failure carries the offending node handle). -/
inductive GraphErr where
  | duplicateInput
  | cyclicGraph (i : Nat)
  | missingInput (i : Nat)
deriving DecidableEq

/-- The declared type of a graph input variable. -/
def inputTy (g : Graph) (i : Nat) : Ty :=
  match g.store[i]? with
  | some (.free t) => t
  | some (.const v) => v.ty
  | _ => Ty.tnat

/-- The ordered list of declared input types of a graph. -/
def inputSig (g : Graph) : List Ty := g.inputs.map (inputTy g)

/-- Checks that a list of concrete values matches a list of declared types,
both in number and pointwise in type. -/
def valsTyped : List Value → List Ty → Bool
  | [], [] => true
  | v :: vs, t :: ts => if v.ty = t then valsTyped vs ts else false
  | _, _ => false

/-- Evaluates a list of argument handles with a given per-handle evaluator,
failing if any argument fails. -/
def evalArgsWith (ev : Nat → Option Value) : List Nat → Option (List Value)
  | [] => some []
  | a :: as =>
    match ev a, evalArgsWith ev as with
    | some v, some vs => some (v :: vs)
    | _, _ => none

/-- Modelled from the spec: direct recursive interpretation of one variable of
a graph.  A declared input takes the caller value at its position, a bound
constant yields its value, an `Apply`-owned variable evaluates its inputs and
runs the operation executor.  Fuel bounds the recursion; an undeclared free
variable or a dangling handle yields no value. -/
def interpVar (g : Graph) (vals : List Value) : Nat → Nat → Option Value
  | 0, _ => none
  | f + 1, i =>
    match posOf g.inputs i with
    | some k => vals[k]?
    | none =>
      match g.store[i]? with
      | some (.free _) => none
      | some (.const v) => some v
      | some (.app op args) =>
        match evalArgsWith (fun a => interpVar g vals f a) args with
        | some vs => some (op.exec vs)
        | none => none
      | none => none

/-- Modelled from the spec: direct, unrewritten interpretation of a graph:
bind concrete values to the declared inputs (checking number and types) and
recursively evaluate every declared output, in declared order. -/
def interpret (g : Graph) (vals : List Value) : Option (List Value) :=
  if valsTyped vals (inputSig g) then
    evalArgsWith (fun o => interpVar g vals (g.store.length + 1) o) g.outputs
  else none

/-- A graph and a list of output values stand in this relation when direct
recursive interpretation (with some sufficient fuel) of the declared outputs
produces exactly those values, in declared order. -/
def EvalsOuts (g : Graph) (vals outs : List Value) : Prop :=
  ∃ f, evalArgsWith (fun o => interpVar g vals f o) g.outputs = some outs

/-- State threaded through cloning: the append-only arena under construction
and the memo table mapping original handles to their fresh copies. -/
structure CState where
  cstore : List VarDef
  memo : List (Nat × Nat)

/-- Clones a list of handles left to right, threading the clone state. -/
def cloneList (cl : Nat → CState → Except GraphErr (Nat × CState)) :
    List Nat → CState → Except GraphErr (List Nat × CState)
  | [], st => .ok ([], st)
  | a :: as, st =>
    match cl a st with
    | .error e => .error e
    | .ok (j, st1) =>
      match cloneList cl as st1 with
      | .error e => .error e
      | .ok (js, st2) => .ok (j :: js, st2)

/-- Modelled from the spec: memoised cloning of one node, tracking a
visiting/visited marker per node (three-color DFS): already-copied nodes hit
the memo table, nodes currently being copied form the visiting list and
re-entering one raises `cyclicGraph` (as when a replacement depends on a
descendant of the replaced node).  A node matching a replacement key is
substituted with (a clone of) its mapped replacement, a declared input is
copied as a fresh leaf, and any other reachable node is freshly constructed
with its inputs cloned recursively; every fresh node is appended to the
arena, so the original region is never written. -/
def cloneAux (g : Graph) (repl : Nat → Option Nat) :
    Nat → List Nat → Nat → CState → Except GraphErr (Nat × CState)
  | 0, _, i, _ => .error (.cyclicGraph i)
  | fuel + 1, visiting, i, st =>
    match alook st.memo i with
    | some j => .ok (j, st)
    | none =>
      if memB visiting i then .error (.cyclicGraph i)
      else
        match repl i with
        | some r =>
          match cloneAux g repl fuel (i :: visiting) r st with
          | .error e => .error e
          | .ok (j, st1) => .ok (j, ⟨st1.cstore, (i, j) :: st1.memo⟩)
        | none =>
          if (posOf g.inputs i).isSome then
            .ok (st.cstore.length,
              ⟨st.cstore ++ [.free (inputTy g i)], (i, st.cstore.length) :: st.memo⟩)
          else
            match g.store[i]? with
            | some (.free t) =>
              .ok (st.cstore.length,
                ⟨st.cstore ++ [.free t], (i, st.cstore.length) :: st.memo⟩)
            | some (.const v) =>
              .ok (st.cstore.length,
                ⟨st.cstore ++ [.const v], (i, st.cstore.length) :: st.memo⟩)
            | some (.app op args) =>
              match cloneList (fun a st2 => cloneAux g repl fuel (i :: visiting) a st2)
                  args st with
              | .error e => .error e
              | .ok (js, st1) =>
                .ok (st1.cstore.length,
                  ⟨st1.cstore ++ [.app op js], (i, st1.cstore.length) :: st1.memo⟩)
            | none => .error (.missingInput i)

/-- Modelled from the spec: cloning/substitution of the subgraph delimited by
(inputs, outputs) under a replacement mapping.  The declared inputs are cloned
first (as fresh leaves, preserving their declared types and order), then every
node reachable from the declared outputs; the arena of the original graph is
kept as an untouched prefix and all fresh nodes are appended after it. -/
def cloneReplace (g : Graph) (repl : Nat → Option Nat) : Except GraphErr Graph :=
  match cloneList (fun a st => cloneAux g repl (g.store.length + 2) [] a st)
      g.inputs ⟨g.store, []⟩ with
  | .error e => .error e
  | .ok (ins, st1) =>
    match cloneList (fun a st => cloneAux g repl (g.store.length + 2) [] a st)
        g.outputs st1 with
    | .error e => .error e
    | .ok (outs, st2) => .ok ⟨st2.cstore, ins, outs⟩

/-- Cloning with the empty replacement mapping, as performed by the function
compiler before any rewriting. -/
def cloneGraph (g : Graph) : Except GraphErr Graph :=
  cloneReplace g (fun _ => none)

/-- Modelled from the spec: applying one local rewrite at node `i`: the
replacement definition is appended to the arena and everything downstream of
the substitution is rebuilt via cloning, never mutating existing nodes. -/
def substituteAt (g : Graph) (i : Nat) (d : VarDef) : Except GraphErr Graph :=
  cloneReplace ⟨g.store ++ [d], g.inputs, g.outputs⟩
    (fun k => if k = i then some g.store.length else none)

/-- Modelled from the spec: a rewrite rule is a pure match/apply pair: a
predicate on the current node and a transform producing a replacement node
definition (or nothing). -/
structure Rule where
  ruleMatch : Graph → Nat → Bool
  rewrite : Graph → Nat → Option VarDef

/-- Modelled from the spec: try the registered rules at one `Apply` node, in
registration-priority order, first match wins; declared inputs and leaf
variables are not rule targets. -/
def scanNode (rules : List Rule) (g : Graph) (i : Nat) : Except GraphErr (Option Graph) :=
  if (posOf g.inputs i).isSome then .ok none
  else
    match g.store[i]? with
    | some (.app _ _) =>
      match rules.find? (fun r => r.ruleMatch g i) with
      | some r =>
        match r.rewrite g i with
        | some d =>
          match substituteAt g i d with
          | .ok g2 => .ok (some g2)
          | .error e => .error e
        | none => .ok none
      | none => .ok none
    | _ => .ok none

/-- Scans the listed nodes in order and applies the first rewrite found. -/
def scanFrom (rules : List Rule) (g : Graph) : List Nat → Except GraphErr (Option Graph)
  | [] => .ok none
  | i :: rest =>
    match scanNode rules g i with
    | .error e => .error e
    | .ok (some g2) => .ok (some g2)
    | .ok none => scanFrom rules g rest

/-- Modelled from the spec: one full scan of a pass over the node set (visited
in deterministic arena/insertion order); returns the locally rewritten graph of
the first applicable rule, or `none` when no rule in the pass matches. -/
def scanOnce (rules : List Rule) (g : Graph) : Except GraphErr (Option Graph) :=
  scanFrom rules g (List.range g.store.length)

/-- Modelled from the spec: a pass repeatedly scans and rewrites until one full
scan makes no change; the returned flag records whether any change occurred and
the returned number is the remaining scan budget (zero when the iteration
ceiling interrupted the pass). -/
def passLoop (rules : List Rule) : Nat → Graph → Except GraphErr (Graph × Bool × Nat)
  | 0, g => .ok (g, false, 0)
  | b + 1, g =>
    match scanOnce rules g with
    | .error e => .error e
    | .ok none => .ok (g, false, b + 1)
    | .ok (some g2) =>
      match passLoop rules b g2 with
      | .error e => .error e
      | .ok (g3, _, b2) => .ok (g3, true, b2)

/-- Modelled from the spec: one whole cycle through the ordered pipeline of
passes, each run to its local fixed point, threading the scan budget. -/
def cycleLoop : List (List Rule) → Nat → Graph → Except GraphErr (Graph × Bool × Nat)
  | [], b, g => .ok (g, false, b)
  | rules :: rest, b, g =>
    match passLoop rules b g with
    | .error e => .error e
    | .ok (g1, c1, b1) =>
      if b1 = 0 then .ok (g1, c1, 0)
      else
        match cycleLoop rest b1 g1 with
        | .error e => .error e
        | .ok (g2, c2, b2) => .ok (g2, c1 || c2, b2)

/-- Modelled from the spec: the rewrite engine loop: repeat whole pipeline
cycles until a cycle completes with no change (converged, flag `true`) or the
configurable iteration ceiling is exhausted (flag `false`). -/
def engineLoop (pipeline : List (List Rule)) : Nat → Graph → Except GraphErr (Graph × Bool)
  | 0, g => .ok (g, false)
  | b + 1, g =>
    match cycleLoop pipeline (b + 1) g with
    | .error e => .error e
    | .ok (g1, false, _) => .ok (g1, true)
    | .ok (g1, true, b1) => if b1 = 0 then .ok (g1, false) else engineLoop pipeline b g1

/-- Modelled from the spec: run the rewrite engine with a pipeline and an
iteration ceiling; returns the best graph found and whether a fixed point was
confirmed. -/
def runEngine (pipeline : List (List Rule)) (maxIter : Nat) (g : Graph) :
    Except GraphErr (Graph × Bool) :=
  engineLoop pipeline maxIter g

/-- Modelled from the spec: compile-time configuration selecting the rewrite
pipeline and the configurable iteration ceiling of the rewrite engine. -/
structure Mode where
  pipeline : List (List Rule)
  maxRewriteIterations : Nat

/-- All rules registered across all passes of a mode. -/
def allRules (mode : Mode) : List Rule := mode.pipeline.flatten

/-- A graph is at a fixed point of a pipeline when no registered pass produces
any further change: every full scan of every pass matches nothing. -/
def FixedPoint (pipeline : List (List Rule)) (g : Graph) : Prop :=
  ∀ rules ∈ pipeline, scanOnce rules g = .ok none

/-- A rewrite rule is locally sound when every substitution it performs
preserves the declared input signature and preserves the interpreted values of
the declared outputs. -/
def SoundRule (r : Rule) : Prop :=
  ∀ g i d g2, r.ruleMatch g i = true → r.rewrite g i = some d →
    substituteAt g i d = .ok g2 →
    inputSig g2 = inputSig g ∧ ∀ vals outs, EvalsOuts g vals outs → EvalsOuts g2 vals outs

/-- The direct dependencies of a node: the inputs of its owning `Apply`, with
declared graph inputs treated as leaves. -/
def argsOfIdx (g : Graph) (i : Nat) : List Nat :=
  if (posOf g.inputs i).isSome then []
  else
    match g.store[i]? with
    | some (.app _ args) => args
    | _ => []

/-- One backward-expansion step of reachability. -/
def expandR (g : Graph) (s : List Nat) : List Nat :=
  s ++ (s.map (argsOfIdx g)).flatten

/-- Iterated backward expansion. -/
def reachIter (g : Graph) : Nat → List Nat → List Nat
  | 0, s => s
  | f + 1, s => reachIter g f (expandR g s)

/-- Modelled from the spec: every handle reachable walking backward from the
declared outputs, stopping at the declared inputs. -/
def reachAll (g : Graph) : List Nat :=
  reachIter g g.store.length g.outputs

/-- Every handle on which node `i` transitively depends. -/
def depReach (g : Graph) (i : Nat) : List Nat :=
  reachIter g g.store.length (argsOfIdx g i)

/-- Whether a slot holds a bound constant. -/
def isConstB (g : Graph) (i : Nat) : Bool :=
  match g.store[i]? with
  | some (.const _) => true
  | _ => false

/-- Whether a slot is owned by an `Apply`. -/
def isAppB (g : Graph) (i : Nat) : Bool :=
  match g.store[i]? with
  | some (.app _ _) => true
  | _ => false

/-- Whether a handle is an undeclared free variable (or a dangling reference):
it is not a declared input and holds neither a constant nor an `Apply`. -/
def isMissingB (g : Graph) (i : Nat) : Bool :=
  if (posOf g.inputs i).isSome then false
  else
    match g.store[i]? with
    | some (.free _) => true
    | none => true
    | _ => false

/-- Modelled from the spec: the `Apply` nodes that must be executed: reachable
from the declared outputs and not themselves declared inputs, listed in
original insertion order. -/
def neededNodes (g : Graph) : List Nat :=
  (List.range g.store.length).filter
    (fun i => memB (reachAll g) i && !(posOf g.inputs i).isSome && isAppB g i)

/-- A handle already has a value available during scheduling: it is a declared
input, a bound constant, or an already scheduled node. -/
def availB (g : Graph) (done : List Nat) (i : Nat) : Bool :=
  (posOf g.inputs i).isSome || isConstB g i || memB done i

/-- An `Apply` node is ready once every one of its inputs is available. -/
def readyB (g : Graph) (done : List Nat) (i : Nat) : Bool :=
  match g.store[i]? with
  | some (.app _ args) => args.all (fun a => availB g done a)
  | _ => false

/-- Modelled from the spec: Kahn-style scheduling loop: repeatedly append the
first (lowest original insertion index) ready unscheduled node; if unscheduled
nodes remain but none is ready, a residual cycle is reported. -/
def schedLoop (g : Graph) (need : List Nat) : Nat → List Nat → Except GraphErr (List Nat)
  | 0, acc => .error (.cyclicGraph ((need.filter (fun i => !memB acc i)).headD 0))
  | f + 1, acc =>
    let rem := need.filter (fun i => !memB acc i)
    if rem.isEmpty then .ok acc
    else
      match rem.find? (readyB g acc) with
      | some i => schedLoop g need f (acc ++ [i])
      | none => .error (.cyclicGraph (rem.headD 0))

/-- Modelled from the spec: the scheduler/linker: re-validates defensively that
no needed node lies on a cycle (raising `cyclicGraph` naming one node in the
cycle), validates that every reachable variable is a declared input, a bound
constant or `Apply`-owned (raising `missingInput` naming the offending
variable), and then topologically orders the needed `Apply` nodes with ties
broken by original insertion order. -/
def schedule (g : Graph) : Except GraphErr (List Nat) :=
  match (neededNodes g).find? (fun i => memB (depReach g i) i) with
  | some j => .error (.cyclicGraph j)
  | none =>
    match (reachAll g).find? (fun i => isMissingB g i) with
    | some i => .error (.missingInput i)
    | none => schedLoop g (neededNodes g) ((neededNodes g).length + 1) []

/-- Modelled from the spec: the execution-plan invariant: every node of the
ordered sequence is an `Apply` node each of whose inputs appears as an output
of an earlier node of the sequence, or is a declared graph input or a bound
constant. -/
def PlanValid (g : Graph) (plan : List Nat) : Prop :=
  ∀ k i, plan[k]? = some i →
    ∃ op args, g.store[i]? = some (.app op args) ∧
      ∀ a ∈ args, availB g (plan.take k) a = true

/-- Modelled from the spec: a compiled callable: the frozen rewritten graph,
the immutable execution plan, and the declared input types. -/
structure Callable where
  graph : Graph
  plan : List Nat
  inTys : List Ty

/-- Modelled from the spec: invocation-time failures: `invalidCallArguments`
surfaces before any operation executes. -/
inductive CallErr where
  | invalidCallArguments
  | executionError
deriving DecidableEq

/-- The value of a handle during plan execution: caller-provided values feed
the declared inputs, bound constants feed themselves, and previously produced
intermediate outputs are looked up in the call environment. -/
def valOf (g : Graph) (vals : List Value) (env : List (Nat × Value)) (i : Nat) : Option Value :=
  match posOf g.inputs i with
  | some k => vals[k]?
  | none =>
    match g.store[i]? with
    | some (.const v) => some v
    | _ => alook env i

/-- Modelled from the spec: executes the plan in order, feeding each `Apply`
from caller values, intermediates, or bound constants, and finally reads the
declared outputs; the second component counts executor invocations. -/
def execPlan (g : Graph) (vals : List Value) :
    List Nat → List (Nat × Value) → Nat → (Except CallErr (List Value)) × Nat
  | [], env, c =>
    match evalArgsWith (fun o => valOf g vals env o) g.outputs with
    | some outs => (.ok outs, c)
    | none => (.error .executionError, c)
  | i :: rest, env, c =>
    match g.store[i]? with
    | some (.app op args) =>
      match evalArgsWith (fun a => valOf g vals env a) args with
      | some avs => execPlan g vals rest ((i, op.exec avs) :: env) (c + 1)
      | none => (.error .executionError, c)
    | _ => (.error .executionError, c)

/-- Modelled from the spec: invoking a callable first validates the number and
types of the caller-provided input values, raising `invalidCallArguments`
before any operation executes, then executes the plan in order.  The second
component counts executor invocations. -/
def invoke (c : Callable) (vals : List Value) : (Except CallErr (List Value)) × Nat :=
  if valsTyped vals c.inTys then execPlan c.graph vals c.plan [] 0
  else (.error .invalidCallArguments, 0)

/-- Modelled from the spec: non-fatal compile-time warnings. -/
inductive Warning where
  | rewriteDidNotConverge
deriving DecidableEq

/-- The outcome of a compilation: the produced callable (or the aborting
error) together with the non-fatal warnings. -/
structure CompileOut where
  result : Except GraphErr Callable
  warnings : List Warning

/-- Modelled from the spec: the scheduler/linker stage: obtain an execution
plan and bind it, with the graph and the declared input types, into a
callable. -/
def linkStage (g : Graph) : Except GraphErr Callable :=
  match schedule g with
  | .error e => .error e
  | .ok plan => .ok ⟨g, plan, inputSig g⟩

/-- Modelled from the spec: the function compiler: validate that no input is
declared twice, clone the subgraph spanning outputs back to inputs, run the
rewrite engine on the clone per the mode (recording a non-fatal
`rewriteDidNotConverge` warning when the iteration ceiling was reached), and
schedule/link the resulting graph into a callable. -/
def compile (mode : Mode) (g : Graph) : CompileOut :=
  if g.inputs.Nodup then
    match cloneGraph g with
    | .error e => ⟨.error e, []⟩
    | .ok gc =>
      match runEngine mode.pipeline mode.maxRewriteIterations gc with
      | .error e => ⟨.error e, []⟩
      | .ok (g2, conv) => ⟨linkStage g2, if conv then [] else [.rewriteDidNotConverge]⟩
  else ⟨.error .duplicateInput, []⟩

/-- A symbolic variable as seen by the façade: an object identity plus the
mutable `name` attribute assigned by `as_symbolic`. -/
structure PyVariable where
  ident : Nat
  name : Option String
deriving DecidableEq

/-- The `TypeError` raised when an object cannot be converted to a variable. -/
inductive PyErr where
  | typeError
deriving DecidableEq

/-- Embedded from `aesara/__init__.py`: `as_symbolic(x, name)` returns `x`
itself when `x` is already a `Variable`; otherwise it converts `x` through the
`_as_symbolic` single-dispatch (modelled as the function argument
`dispatchConvert`, which may raise `TypeError`) and then unconditionally
assigns the `name` argument to the result's `name` attribute. -/
def as_symbolic {α : Type} (dispatchConvert : α → Except PyErr PyVariable)
    (x : PyVariable ⊕ α) (name : Option String) : Except PyErr PyVariable :=
  match x with
  | .inl v => .ok v
  | .inr o =>
    match dispatchConvert o with
    | .ok res => .ok { res with name := name }
    | .error e => .error e

/-- A variable of a graph interprets to a value when direct recursive
interpretation with some sufficient fuel produces it. -/
def EvalsVar (g : Graph) (vals : List Value) (i : Nat) (v : Value) : Prop :=
  ∃ f, interpVar g vals f i = some v

/-- Semantic preservation between two graphs: the declared input signature is
unchanged and every interpreted output-value list of the first graph is an
interpreted output-value list of the second. -/
def Pres (g g2 : Graph) : Prop :=
  inputSig g2 = inputSig g ∧ ∀ vals outs, EvalsOuts g vals outs → EvalsOuts g2 vals outs

/-- Conservative extension of a clone state: the arena only grows at the end,
and the memo table only gains entries whose keys were absent before. -/
def CExt (st st2 : CState) : Prop :=
  (∃ ext, st2.cstore = st.cstore ++ ext) ∧
  ∃ me, st2.memo = me ++ st.memo ∧ ∀ p ∈ me, alook st.memo p.1 = none

/-- Structural invariant of cloning over an original graph: the original arena
is an untouched prefix, every memo image is a fresh in-range handle, and every
fresh node references only fresh in-range handles. -/
def GInv (g : Graph) (st : CState) : Prop :=
  (∃ ext, st.cstore = g.store ++ ext) ∧
  (∀ p ∈ st.memo, g.store.length ≤ p.2 ∧ p.2 < st.cstore.length) ∧
  (∀ k d, g.store.length ≤ k → st.cstore[k]? = some d →
    ∀ a ∈ d.argsOf, g.store.length ≤ a ∧ a < st.cstore.length)

/-- Binary addition on natural-number values (a sample registered operation
kind; any ill-typed application defaults to zero). -/
def addOp : OpKind :=
  ⟨"add", fun vs =>
    match vs with
    | [.vnat a, .vnat b] => .vnat (a + b)
    | _ => .vnat 0⟩

/-- Sample user graph computing `x + y` from inputs `x` and `y`. -/
def gAdd : Graph :=
  ⟨[.free .tnat, .free .tnat, .app addOp [0, 1]], [0, 1], [2]⟩

/-- Mode with no registered rewrite passes. -/
def mEmpty : Mode := ⟨[], 4⟩

/-- The callable compiled from `gAdd` with no rewriting. -/
def cAdd : Callable :=
  match (compile mEmpty gAdd).result with
  | .ok c => c
  | .error _ => ⟨gAdd, [], []⟩

/-- A rewrite rule that fires on every `Apply` node and rewrites it to a fresh
addition of the two declared inputs; the engine never converges on it. -/
def spinRule : Rule :=
  ⟨fun _ _ => true, fun _ _ => some (.app addOp [0, 1])⟩

/-- Mode running the never-converging rule with a small iteration ceiling. -/
def mSpin : Mode := ⟨[[spinRule]], 2⟩

/-- The clone produced by compiling `gAdd`. -/
def gAddC : Graph :=
  match cloneGraph gAdd with
  | .ok h => h
  | .error _ => gAdd

/-- The best graph found by the non-converging engine run on `gAddC`. -/
def gSpin1 : Graph :=
  match runEngine mSpin.pipeline mSpin.maxRewriteIterations gAddC with
  | .ok p => p.1
  | .error _ => gAdd

/-- Artificial cyclic graph: an `Apply` whose input is its own output. -/
def gLoop : Graph := ⟨[.app addOp [0]], [], [0]⟩

/-- Graph whose declared output depends on an undeclared free variable. -/
def gMiss : Graph := ⟨[.free .tnat, .app addOp [0, 0]], [], [1]⟩

/-- Semantic mirror relation of cloning: the clone-state slot `j` is a faithful
copy of original node `i` — a declared input maps to a fresh leaf of the same
declared type, a leaf maps to an equal leaf, and an `Apply`-owned node maps to
an `Apply` of the same operation whose inputs are the memoised copies of the
original inputs. -/
def MirrorE (g : Graph) (st : CState) (i j : Nat) : Prop :=
  match posOf g.inputs i with
  | some _ => st.cstore[j]? = some (.free (inputTy g i))
  | none =>
    match g.store[i]? with
    | some (.free t) => st.cstore[j]? = some (.free t)
    | some (.const v) => st.cstore[j]? = some (.const v)
    | some (.app op args) =>
      ∃ js, st.cstore[j]? = some (.app op js) ∧
        List.Forall₂ (fun a b => alook st.memo a = some b) args js
    | none => False

/-- Every memo entry of a clone state mirrors its original node. -/
def MInv (g : Graph) (st : CState) : Prop :=
  ∀ p ∈ st.memo, MirrorE g st p.1 p.2

/-- Memo values determine memo keys (the clone map is injective). -/
def VNodup (st : CState) : Prop :=
  ∀ p q, p ∈ st.memo → q ∈ st.memo → p.2 = q.2 → p.1 = q.1

/-- C9: `as_symbolic` is idempotent on Variables: for every `x` that is
already a `Variable`, `as_symbolic x name` returns `x` itself unchanged, and
the `name` argument is ignored (it does not rename the existing variable). -/
theorem c9_as_symbolic_identity_on_variables {α : Type}
    (dispatchConvert : α → Except PyErr PyVariable) (v : PyVariable)
    (name : Option String) :
    as_symbolic dispatchConvert (.inl v) name = .ok v := rfl

/-- C10: for every non-`Variable` input that converts successfully,
`as_symbolic` unconditionally sets the returned variable's `name` attribute to
the `name` argument — including `none` when the argument is omitted —
overwriting any name the underlying conversion assigned. -/
theorem c10_as_symbolic_overwrites_name {α : Type}
    (dispatchConvert : α → Except PyErr PyVariable) (o : α) (res : PyVariable)
    (name : Option String) (h : dispatchConvert o = .ok res) :
    as_symbolic dispatchConvert (.inr o) name = .ok { res with name := name } := by
  have hstep : as_symbolic dispatchConvert (.inr o) name =
      (match dispatchConvert o with
       | .ok r => .ok { r with name := name }
       | .error e => .error e) := rfl
  rw [hstep, h]

/-- Witness for C10 at a concrete conversion that assigns a name of its own:
the result's name is overwritten with `none`. -/
theorem c10_as_symbolic_overwrites_name_witness :
    (fun (_ : Unit) => (Except.ok ⟨7, some "auto"⟩ : Except PyErr PyVariable)) () =
      Except.ok (⟨7, some "auto"⟩ : PyVariable) ∧
    as_symbolic (fun (_ : Unit) => (Except.ok ⟨7, some "auto"⟩ : Except PyErr PyVariable))
      (.inr ()) none = .ok ⟨7, none⟩ :=
  ⟨rfl, c10_as_symbolic_overwrites_name _ () ⟨7, some "auto"⟩ none rfl⟩

/-- C2: invoking a callable with the wrong number or type of input values
yields `invalidCallArguments` with zero operation-executor invocations: the
call fails fast before any operation executes. -/
theorem c2_invalid_call_arguments_fail_fast (c : Callable) (vals : List Value)
    (h : valsTyped vals c.inTys = false) :
    invoke c vals = (.error .invalidCallArguments, 0) := by
  unfold invoke
  rw [h]
  rfl

/-- Witness for C2: calling the compiled `x + y` with one fewer argument than
declared fails fast with zero executor invocations. -/
theorem c2_invalid_call_arguments_fail_fast_witness :
    valsTyped [Value.vnat 2] cAdd.inTys = false ∧
    invoke cAdd [Value.vnat 2] = (.error .invalidCallArguments, 0) :=
  ⟨rfl, c2_invalid_call_arguments_fail_fast cAdd [Value.vnat 2] rfl⟩

/-- A pass that completes one scan with no change leaves the graph and the
budget unchanged. -/
theorem passLoop_of_clean (rules : List Rule) (g : Graph) (b : Nat)
    (h : scanOnce rules g = .ok none) :
    passLoop rules (b + 1) g = .ok (g, false, b + 1) := by
  unfold passLoop
  rw [h]

/-- A pass that reports no change (with budget left at entry) did a genuinely
clean scan and returned its input unchanged with the budget untouched. -/
theorem passLoop_clean_inv (rules : List Rule) (g g1 : Graph) (b b1 : Nat)
    (hb : 1 ≤ b) (h : passLoop rules b g = .ok (g1, false, b1)) :
    g1 = g ∧ b1 = b ∧ scanOnce rules g = .ok none := by
  obtain ⟨b', rfl⟩ : ∃ b', b = b' + 1 := ⟨b - 1, by omega⟩
  cases hscan : scanOnce rules g with
  | error e => simp [passLoop, hscan] at h
  | ok og =>
    cases og with
    | none =>
      simp [passLoop, hscan] at h
      exact ⟨h.1.symm, h.2.symm, rfl⟩
    | some g2 =>
      simp only [passLoop, hscan] at h
      cases hp : passLoop rules b' g2 with
      | error e => rw [hp] at h; simp at h
      | ok t =>
        obtain ⟨g3, c3, b3⟩ := t
        rw [hp] at h
        simp at h

/-- A whole no-change cycle through the pipeline leaves the graph and budget
unchanged and certifies that every pass scans clean: a fixed point. -/
theorem cycleLoop_clean_inv (P : List (List Rule)) :
    ∀ (g g1 : Graph) (b b1 : Nat), 1 ≤ b →
      cycleLoop P b g = .ok (g1, false, b1) →
      g1 = g ∧ b1 = b ∧ FixedPoint P g := by
  induction P with
  | nil =>
    intro g g1 b b1 _ h
    simp [cycleLoop] at h
    exact ⟨h.1.symm, h.2.symm, fun rules hr => absurd hr (List.not_mem_nil _)⟩
  | cons rules rest ih =>
    intro g g1 b b1 hb h
    cases hp : passLoop rules b g with
    | error e => simp [cycleLoop, hp] at h
    | ok t =>
      obtain ⟨ga, ca, ba⟩ := t
      by_cases hba : ba = 0
      · simp [cycleLoop, hp, hba] at h
        obtain ⟨_, hcf, hb1⟩ := h
        rw [hcf] at hp
        obtain ⟨_, hbb, _⟩ := passLoop_clean_inv rules g ga b ba hb hp
        omega
      · simp only [cycleLoop, hp, hba, if_false, if_neg hba] at h
        cases hcy : cycleLoop rest ba ga with
        | error e => rw [hcy] at h; simp at h
        | ok t2 =>
          obtain ⟨gb, cb, b2⟩ := t2
          rw [hcy] at h
          simp at h
          obtain ⟨hg1, ⟨hca, hcb⟩, hb1⟩ := h
          rw [hca] at hp
          obtain ⟨hga, hbab, hscan⟩ := passLoop_clean_inv rules g ga b ba hb hp
          rw [hcb] at hcy
          obtain ⟨hgb, hb2, hfix⟩ := ih ga gb ba b2 (by omega) hcy
          refine ⟨by rw [← hg1, hgb, hga], by omega, ?_⟩
          intro rs hr
          cases hr with
          | head => exact hscan
          | tail _ hmem => rw [← hga]; exact hfix rs hmem

/-- A pipeline at a fixed point makes a whole cycle with no change. -/
theorem cycleLoop_of_fixed (P : List (List Rule)) :
    ∀ (g : Graph) (b : Nat), FixedPoint P g →
      cycleLoop P (b + 1) g = .ok (g, false, b + 1) := by
  induction P with
  | nil => intro g b _; rfl
  | cons rules rest ih =>
    intro g b hfix
    have h1 : passLoop rules (b + 1) g = .ok (g, false, b + 1) :=
      passLoop_of_clean rules g b (hfix rules (List.mem_cons_self _ _))
    have h2 : cycleLoop rest (b + 1) g = .ok (g, false, b + 1) :=
      ih g b (fun rs hr => hfix rs (List.mem_cons_of_mem _ hr))
    simp [cycleLoop, h1, h2]

/-- When the engine reports convergence, the returned graph is a genuine fixed
point of the whole pipeline, and at least one iteration was granted. -/
theorem engineLoop_converged_inv (P : List (List Rule)) :
    ∀ (n : Nat) (g g1 : Graph), engineLoop P n g = .ok (g1, true) →
      FixedPoint P g1 ∧ 1 ≤ n := by
  intro n
  induction n with
  | zero => intro g g1 h; simp [engineLoop] at h
  | succ m ih =>
    intro g g1 h
    cases hcy : cycleLoop P (m + 1) g with
    | error e => simp [engineLoop, hcy] at h
    | ok t =>
      obtain ⟨ga, ca, ba⟩ := t
      cases ca with
      | false =>
        simp [engineLoop, hcy] at h
        obtain ⟨hgg, _, hfix⟩ := cycleLoop_clean_inv P g ga (m + 1) ba (by omega) hcy
        rw [← h, hgg]
        exact ⟨hfix, by omega⟩
      | true =>
        by_cases hba : ba = 0
        · simp [engineLoop, hcy, hba] at h
        · simp only [engineLoop, hcy, if_neg hba] at h
          exact ⟨(ih ga g1 h).1, by omega⟩

/-- C3: the rewrite engine is idempotent after convergence: once a run reports
a fixed point, running the engine again on its own output (with the same
pipeline and ceiling) returns the same graph with no further change. -/
theorem c3_engine_idempotent_after_convergence (P : List (List Rule)) (n : Nat)
    (g g1 : Graph) (h : runEngine P n g = .ok (g1, true)) :
    runEngine P n g1 = .ok (g1, true) := by
  obtain ⟨hfix, hn⟩ := engineLoop_converged_inv P n g g1 h
  obtain ⟨m, rfl⟩ : ∃ m, n = m + 1 := ⟨n - 1, by omega⟩
  unfold runEngine engineLoop
  rw [cycleLoop_of_fixed P g1 m hfix]

/-- Witness for C3: the engine with no registered passes converges at once,
and re-running it produces no further change. -/
theorem c3_engine_idempotent_after_convergence_witness :
    runEngine [] 1 gAdd = .ok (gAdd, true) :=
  c3_engine_idempotent_after_convergence [] 1 gAdd gAdd rfl

/-- C4: the rewrite engine terminates with a verdict: a reported convergence
is a genuine whole-cycle fixed point, and when the configurable iteration
ceiling (`Mode.maxRewriteIterations`) is reached instead, compilation does not
fail: it records the non-fatal `rewriteDidNotConverge` warning and proceeds to
schedule and link the best graph found so far. -/
theorem c4_engine_ceiling_nonfatal (mode : Mode) (g g0 g1 : Graph) :
    (runEngine mode.pipeline mode.maxRewriteIterations g0 = .ok (g1, true) →
      FixedPoint mode.pipeline g1) ∧
    (g.inputs.Nodup → cloneGraph g = .ok g0 →
      runEngine mode.pipeline mode.maxRewriteIterations g0 = .ok (g1, false) →
      (compile mode g).warnings = [Warning.rewriteDidNotConverge] ∧
      (compile mode g).result = linkStage g1) := by
  constructor
  · intro h
    exact (engineLoop_converged_inv mode.pipeline mode.maxRewriteIterations g0 g1 h).1
  · intro hnd hclone hrun
    simp [compile, hnd, hclone, hrun]

/-- Witness for C4: the empty pipeline converges to a fixed point, and a
never-converging rule with a small ceiling produces the non-fatal warning
while compilation still links the best graph found. -/
theorem c4_engine_ceiling_nonfatal_witness :
    FixedPoint ([] : List (List Rule)) gAdd ∧
    ((compile mSpin gAdd).warnings = [Warning.rewriteDidNotConverge] ∧
      (compile mSpin gAdd).result = linkStage gSpin1) :=
  ⟨(c4_engine_ceiling_nonfatal mEmpty gAdd gAdd gAdd).1 rfl,
    (c4_engine_ceiling_nonfatal mSpin gAdd gAddC gSpin1).2 (by decide) rfl rfl⟩

/-- A successful association lookup comes from a list member. -/
theorem alook_mem {α : Type} : ∀ (l : List (Nat × α)) (a : Nat) (b : α),
    alook l a = some b → (a, b) ∈ l := by
  intro l
  induction l with
  | nil => intro a b h; cases h
  | cons p ps ih =>
    intro a b h
    unfold alook at h
    by_cases hp : p.1 = a
    · rw [if_pos hp] at h
      cases h
      rw [← hp]
      exact List.mem_cons_self _ _
    · rw [if_neg hp] at h
      exact List.mem_cons_of_mem _ (ih a b h)

/-- Prepending entries with keys absent from a list does not disturb
successful lookups in that list. -/
theorem alook_append_left {α : Type} : ∀ (me l : List (Nat × α)) (a : Nat) (b : α),
    alook l a = some b → (∀ p ∈ me, alook l p.1 = none) →
    alook (me ++ l) a = some b := by
  intro me
  induction me with
  | nil => intro l a b h _; exact h
  | cons p ps ih =>
    intro l a b h hf
    have hp : p.1 ≠ a := by
      intro hcon
      have := hf p (List.mem_cons_self _ _)
      rw [hcon, h] at this
      cases this
    show alook (p :: (ps ++ l)) a = some b
    unfold alook
    rw [if_neg hp]
    exact ih l a b h (fun q hq => hf q (List.mem_cons_of_mem _ hq))

/-- A lookup failing across an appended list fails in the suffix. -/
theorem alook_append_none {α : Type} : ∀ (me l : List (Nat × α)) (a : Nat),
    alook (me ++ l) a = none → alook l a = none := by
  intro me
  induction me with
  | nil => intro l a h; exact h
  | cons p ps ih =>
    intro l a h
    have h2 : (if p.1 = a then some p.2 else alook (ps ++ l) a) = none := h
    by_cases hp : p.1 = a
    · rw [if_pos hp] at h2; cases h2
    · rw [if_neg hp] at h2; exact ih l a h2

/-- Conservative clone-state extension is reflexive. -/
theorem CExt_refl (st : CState) : CExt st st :=
  ⟨⟨[], (List.append_nil _).symm⟩, [], rfl, fun _ hp => absurd hp (List.not_mem_nil _)⟩

/-- Conservative clone-state extension is transitive. -/
theorem CExt_trans (s1 s2 s3 : CState) (h1 : CExt s1 s2) (h2 : CExt s2 s3) :
    CExt s1 s3 := by
  obtain ⟨⟨e1, he1⟩, m1, hm1, hf1⟩ := h1
  obtain ⟨⟨e2, he2⟩, m2, hm2, hf2⟩ := h2
  refine ⟨⟨e1 ++ e2, by rw [he2, he1, List.append_assoc]⟩, m2 ++ m1, by rw [hm2, hm1, List.append_assoc], ?_⟩
  intro p hp
  rcases List.mem_append.1 hp with hp2 | hp1
  · have := hf2 p hp2
    rw [hm1] at this
    exact alook_append_none m1 s1.memo p.1 this
  · exact hf1 p hp1

/-- Memo lookups are stable under conservative extension. -/
theorem alook_CExt (s1 s2 : CState) (a b : Nat) (h : CExt s1 s2)
    (hl : alook s1.memo a = some b) : alook s2.memo a = some b := by
  obtain ⟨_, me, hme, hf⟩ := h
  rw [hme]
  exact alook_append_left me s1.memo a b hl hf

/-- The arena never shrinks under conservative extension. -/
theorem CExt_length (s1 s2 : CState) (h : CExt s1 s2) :
    s1.cstore.length ≤ s2.cstore.length := by
  obtain ⟨⟨e, he⟩, _⟩ := h
  rw [he, List.length_append]
  omega

/-- Existing arena slots are unchanged under conservative extension. -/
theorem cstore_get_CExt (s1 s2 : CState) (k : Nat) (h : CExt s1 s2)
    (hk : k < s1.cstore.length) : s2.cstore[k]? = s1.cstore[k]? := by
  obtain ⟨⟨e, he⟩, _⟩ := h
  rw [he]
  simp [List.getElem?_append_left hk]

/-- If a pointwise relation holds along `Forall₂`, every right member is
related to some left member. -/
theorem forall₂_mem_right {α β : Type} (r : α → β → Prop) :
    ∀ (as : List α) (bs : List β), List.Forall₂ r as bs →
      ∀ b ∈ bs, ∃ a, a ∈ as ∧ r a b := by
  intro as bs h
  induction h with
  | nil => intro b hb; cases hb
  | cons hr _ ih =>
    intro b hb
    cases hb with
    | head => exact ⟨_, List.mem_cons_self _ _, hr⟩
    | tail _ hmem =>
      obtain ⟨a, ha, har⟩ := ih b hmem
      exact ⟨a, List.mem_cons_of_mem _ ha, har⟩

/-- Generic induction principle for `cloneList`: a per-element contract that
preserves an invariant and conservatively extends the state lifts to the whole
list, relating elements to results pointwise. -/
theorem cloneList_ind (cl : Nat → CState → Except GraphErr (Nat × CState))
    (P : CState → Prop) (R : Nat → Nat → CState → Prop)
    (hmono : ∀ a b s1 s2, R a b s1 → CExt s1 s2 → R a b s2)
    (hcl : ∀ i st j st2, P st → cl i st = .ok (j, st2) → P st2 ∧ CExt st st2 ∧ R i j st2) :
    ∀ (as : List Nat) (st : CState) (js : List Nat) (st2 : CState), P st →
      cloneList cl as st = .ok (js, st2) →
      P st2 ∧ CExt st st2 ∧ List.Forall₂ (fun a b => R a b st2) as js := by
  intro as
  induction as with
  | nil =>
    intro st js st2 hP h
    simp [cloneList] at h
    obtain ⟨hjs, hst⟩ := h
    subst hjs
    subst hst
    exact ⟨hP, CExt_refl st, List.Forall₂.nil⟩
  | cons a as ih =>
    intro st js st2 hP h
    cases hc : cl a st with
    | error e => simp [cloneList, hc] at h
    | ok t =>
      obtain ⟨j, st1⟩ := t
      simp only [cloneList, hc] at h
      cases hrest : cloneList cl as st1 with
      | error e => rw [hrest] at h; simp at h
      | ok t2 =>
        obtain ⟨js1, stf⟩ := t2
        rw [hrest] at h
        simp at h
        obtain ⟨hjs, hst⟩ := h
        obtain ⟨hP1, hext1, hR1⟩ := hcl a st j st1 hP hc
        obtain ⟨hPf, hextf, hRf⟩ := ih st1 js1 stf hP1 hrest
        subst hjs
        subst hst
        exact ⟨hPf, CExt_trans st st1 stf hext1 hextf,
          List.Forall₂.cons (hmono a j st1 stf hR1 hextf) hRf⟩

/-- Appending fresh arena slots and prepending a fresh-keyed memo entry is a
conservative extension of any state it conservatively extends. -/
theorem cext_push (st0 st : CState) (i : Nat) (ds : List VarDef) (hext : CExt st0 st)
    (hm : alook st0.memo i = none) :
    CExt st0 ⟨st.cstore ++ ds, (i, st.cstore.length) :: st.memo⟩ := by
  obtain ⟨⟨e, he⟩, me, hme, hf⟩ := hext
  refine ⟨⟨e ++ ds, by rw [he, List.append_assoc]⟩,
    (i, st.cstore.length) :: me, by simp [hme], ?_⟩
  intro p hp
  cases hp with
  | head => exact hm
  | tail _ hp' => exact hf p hp'

/-- Pushing one fresh node whose references are fresh and in range preserves
the clone invariant. -/
theorem ginv_push (g : Graph) (st : CState) (i : Nat) (d : VarDef) (hinv : GInv g st)
    (hargs : ∀ a ∈ d.argsOf, g.store.length ≤ a ∧ a < st.cstore.length) :
    GInv g ⟨st.cstore ++ [d], (i, st.cstore.length) :: st.memo⟩ ∧
      g.store.length ≤ st.cstore.length := by
  obtain ⟨⟨ext, hext⟩, hmemo, hfresh⟩ := hinv
  have hlen0 : g.store.length ≤ st.cstore.length := by
    rw [hext, List.length_append]; omega
  refine ⟨⟨⟨ext ++ [d], by rw [hext, List.append_assoc]⟩, ?_, ?_⟩, hlen0⟩
  · intro p hp
    cases hp with
    | head =>
      refine ⟨hlen0, ?_⟩
      simp [List.length_append]
    | tail _ hp' =>
      have hb := hmemo p hp'
      refine ⟨hb.1, ?_⟩
      simp only [List.length_append, List.length_cons]
      omega
  · intro k dk hk hget a ha
    by_cases hklt : k < st.cstore.length
    · rw [List.getElem?_append_left hklt] at hget
      have hb := hfresh k dk hk hget a ha
      refine ⟨hb.1, ?_⟩
      simp only [List.length_append]
      omega
    · have hkge : st.cstore.length ≤ k := by omega
      rw [List.getElem?_append_right hkge] at hget
      by_cases hkeq : k = st.cstore.length
      · have : k - st.cstore.length = 0 := by omega
        rw [this] at hget
        simp at hget
        rw [← hget] at ha
        have hb := hargs a ha
        refine ⟨hb.1, ?_⟩
        simp only [List.length_append, List.length_singleton]
        omega
      · have : 1 ≤ k - st.cstore.length := by omega
        rw [List.getElem?_eq_none (by simp; omega)] at hget
        cases hget

/-- Main structural lemma for cloning: a successful `cloneAux` run preserves
the clone invariant, conservatively extends the state, and returns a fresh,
in-range, memoised handle for the requested node. -/
theorem cloneAux_ginv (g : Graph) (repl : Nat → Option Nat) :
    ∀ (fuel : Nat) (V : List Nat) (i : Nat) (st : CState) (j : Nat) (st2 : CState),
      GInv g st →
      cloneAux g repl fuel V i st = .ok (j, st2) →
      GInv g st2 ∧ CExt st st2 ∧
        (g.store.length ≤ j ∧ j < st2.cstore.length ∧ alook st2.memo i = some j) := by
  intro fuel
  induction fuel with
  | zero => intro V i st j st2 _ h; cases h
  | succ f ih =>
    intro V i st j st2 hinv h
    cases hm : alook st.memo i with
    | some j0 =>
      simp [cloneAux, hm] at h
      obtain ⟨hj, hst⟩ := h
      subst hj
      subst hst
      have hb := hinv.2.1 _ (alook_mem _ _ _ hm)
      exact ⟨hinv, CExt_refl st, hb.1, hb.2, hm⟩
    | none =>
      cases hgray : memB V i with
      | true => simp [cloneAux, hm, hgray] at h
      | false =>
      cases hr : repl i with
      | some r =>
        simp only [cloneAux, hm, hgray, hr, Bool.false_eq_true, if_false] at h
        cases hrec : cloneAux g repl f (i :: V) r st with
        | error e => rw [hrec] at h; simp at h
        | ok t =>
          obtain ⟨j1, st1⟩ := t
          rw [hrec] at h
          simp at h
          obtain ⟨hj, hst⟩ := h
          obtain ⟨hinv1, hext1, hj1a, hj1b, _⟩ := ih (i :: V) r st j1 st1 hinv hrec
          subst hj
          subst hst
          obtain ⟨⟨e1, he1⟩, me1, hme1, hf1⟩ := hext1
          refine ⟨⟨hinv1.1, ?_, hinv1.2.2⟩, ?_, hj1a, hj1b, ?_⟩
          · intro p hp
            cases hp with
            | head => exact ⟨hj1a, hj1b⟩
            | tail _ hp' => exact hinv1.2.1 p hp'
          · exact ⟨⟨e1, he1⟩, (i, j1) :: me1, by simp [hme1], by
              intro p hp
              cases hp with
              | head => exact hm
              | tail _ hp' => exact hf1 p hp'⟩
          · show alook ((i, j1) :: st1.memo) i = some j1
            unfold alook
            rw [if_pos rfl]
      | none =>
        cases hin : (posOf g.inputs i).isSome with
        | true =>
          simp only [cloneAux, hm, hgray, hr, hin, Bool.false_eq_true, if_false,
            if_true] at h
          simp at h
          obtain ⟨hj, hst⟩ := h
          subst hj
          subst hst
          obtain ⟨hg2, hlen0⟩ := ginv_push g st i (.free (inputTy g i)) hinv
            (by intro a ha; cases ha)
          refine ⟨hg2, cext_push st st i _ (CExt_refl st) hm, hlen0, ?_, ?_⟩
          · simp [List.length_append]
          · show alook ((i, st.cstore.length) :: st.memo) i = some st.cstore.length
            unfold alook
            rw [if_pos rfl]
        | false =>
          cases hd : g.store[i]? with
          | none => simp [cloneAux, hm, hgray, hr, hin, hd] at h
          | some vd =>
            cases vd with
            | free t =>
              simp only [cloneAux, hm, hgray, hr, hin, Bool.false_eq_true, if_false,
                hd] at h
              simp at h
              obtain ⟨hj, hst⟩ := h
              subst hj
              subst hst
              obtain ⟨hg2, hlen0⟩ := ginv_push g st i (.free t) hinv
                (by intro a ha; cases ha)
              refine ⟨hg2, cext_push st st i _ (CExt_refl st) hm, hlen0, ?_, ?_⟩
              · simp [List.length_append]
              · show alook ((i, st.cstore.length) :: st.memo) i = some st.cstore.length
                unfold alook
                rw [if_pos rfl]
            | const v =>
              simp only [cloneAux, hm, hgray, hr, hin, Bool.false_eq_true, if_false,
                hd] at h
              simp at h
              obtain ⟨hj, hst⟩ := h
              subst hj
              subst hst
              obtain ⟨hg2, hlen0⟩ := ginv_push g st i (.const v) hinv
                (by intro a ha; cases ha)
              refine ⟨hg2, cext_push st st i _ (CExt_refl st) hm, hlen0, ?_, ?_⟩
              · simp [List.length_append]
              · show alook ((i, st.cstore.length) :: st.memo) i = some st.cstore.length
                unfold alook
                rw [if_pos rfl]
            | app op args =>
              simp only [cloneAux, hm, hgray, hr, hin, Bool.false_eq_true, if_false,
                hd] at h
              cases hcl2 : cloneList (fun a st2 => cloneAux g repl f (i :: V) a st2)
                  args st with
              | error e => rw [hcl2] at h; simp at h
              | ok t =>
                obtain ⟨js, st1⟩ := t
                rw [hcl2] at h
                simp at h
                obtain ⟨hj, hst⟩ := h
                subst hj
                subst hst
                have hlist := cloneList_ind (fun a st2 => cloneAux g repl f (i :: V) a st2)
                  (GInv g)
                  (fun a b stx => g.store.length ≤ b ∧ b < stx.cstore.length ∧
                    alook stx.memo a = some b)
                  (by
                    intro a b s1 s2 hR hext
                    exact ⟨hR.1, lt_of_lt_of_le hR.2.1 (CExt_length s1 s2 hext),
                      alook_CExt s1 s2 a b hext hR.2.2⟩)
                  (fun i' st' j' st2' hP hh => ih (i :: V) i' st' j' st2' hP hh)
                  args st js st1 hinv hcl2
                obtain ⟨hinv1, hext1, hR⟩ := hlist
                have hargs : ∀ a ∈ (VarDef.app op js).argsOf,
                    g.store.length ≤ a ∧ a < st1.cstore.length := by
                  intro a ha
                  obtain ⟨_, _, hfacts⟩ := forall₂_mem_right _ args js hR a ha
                  exact ⟨hfacts.1, hfacts.2.1⟩
                obtain ⟨hg2, hlen0⟩ := ginv_push g st1 i (.app op js) hinv1 hargs
                refine ⟨hg2, cext_push st st1 i _ hext1 hm, hlen0, ?_, ?_⟩
                · simp [List.length_append]
                · show alook ((i, st1.cstore.length) :: st1.memo) i =
                    some st1.cstore.length
                  unfold alook
                  rw [if_pos rfl]

/-- The clone invariant holds initially: the arena is exactly the original
graph and the memo table is empty. -/
theorem ginv_init (g : Graph) : GInv g ⟨g.store, []⟩ := by
  refine ⟨⟨[], (List.append_nil _).symm⟩,
    fun p hp => absurd hp (List.not_mem_nil _), ?_⟩
  intro k d hk hget
  rw [List.getElem?_eq_none hk] at hget
  cases hget

/-- A successful `cloneReplace` is witnessed by a final clone state satisfying
the invariant, with the fresh inputs and outputs memo-related pointwise to the
originals. -/
theorem cloneReplace_ginv (g g2 : Graph) (repl : Nat → Option Nat)
    (h : cloneReplace g repl = .ok g2) :
    ∃ st : CState, GInv g st ∧ g2.store = st.cstore ∧
      List.Forall₂ (fun a b => g.store.length ≤ b ∧ b < st.cstore.length ∧
        alook st.memo a = some b) g.inputs g2.inputs ∧
      List.Forall₂ (fun a b => g.store.length ≤ b ∧ b < st.cstore.length ∧
        alook st.memo a = some b) g.outputs g2.outputs := by
  cases h1 : cloneList (fun a st => cloneAux g repl (g.store.length + 2) [] a st)
      g.inputs ⟨g.store, []⟩ with
  | error e => simp [cloneReplace, h1] at h
  | ok t1 =>
    obtain ⟨ins, st1⟩ := t1
    cases h2 : cloneList (fun a st => cloneAux g repl (g.store.length + 2) [] a st)
        g.outputs st1 with
    | error e => simp [cloneReplace, h1, h2] at h
    | ok t2 =>
      obtain ⟨outs, st2⟩ := t2
      simp [cloneReplace, h1, h2] at h
      have hmono : ∀ (a b : Nat) (s1 s2 : CState),
          (g.store.length ≤ b ∧ b < s1.cstore.length ∧ alook s1.memo a = some b) →
          CExt s1 s2 →
          (g.store.length ≤ b ∧ b < s2.cstore.length ∧ alook s2.memo a = some b) := by
        intro a b s1 s2 hR hext
        exact ⟨hR.1, lt_of_lt_of_le hR.2.1 (CExt_length s1 s2 hext),
          alook_CExt s1 s2 a b hext hR.2.2⟩
      have hcl : ∀ i st j st2, GInv g st →
          cloneAux g repl (g.store.length + 2) [] i st = .ok (j, st2) →
          GInv g st2 ∧ CExt st st2 ∧
            (g.store.length ≤ j ∧ j < st2.cstore.length ∧ alook st2.memo i = some j) :=
        fun i st j st2 hP hh =>
          cloneAux_ginv g repl (g.store.length + 2) [] i st j st2 hP hh
      obtain ⟨hinv1, _, hins⟩ := cloneList_ind _ (GInv g) _ hmono hcl
        g.inputs ⟨g.store, []⟩ ins st1 (ginv_init g) h1
      obtain ⟨hinv2, hext2, houts⟩ := cloneList_ind _ (GInv g) _ hmono hcl
        g.outputs st1 outs st2 hinv1 h2
      refine ⟨st2, hinv2, by rw [← h], ?_, by rw [← h]; exact houts⟩
      rw [← h]
      exact List.Forall₂.imp (fun a b hab => hmono a b st1 st2 hab hext2) hins

/-- The original graph is an untouched prefix of every successful clone. -/
theorem cloneReplace_untouched (g g2 : Graph) (repl : Nat → Option Nat)
    (h : cloneReplace g repl = .ok g2) : ∃ ext, g2.store = g.store ++ ext := by
  obtain ⟨st, hinv, hst, _⟩ := cloneReplace_ginv g g2 repl h
  obtain ⟨⟨ext, he⟩, _⟩ := hinv
  exact ⟨ext, by rw [hst, he]⟩

/-- Substitution only appends to the arena: the original graph, including the
node being replaced, is left unmodified. -/
theorem substituteAt_extends (g : Graph) (i : Nat) (d : VarDef) (g2 : Graph)
    (h : substituteAt g i d = .ok g2) : ∃ ext, g2.store = g.store ++ ext := by
  obtain ⟨ext2, hext⟩ := cloneReplace_untouched _ _ _ h
  exact ⟨[d] ++ ext2, by rw [hext]; simp⟩

/-- Inversion for a single-node scan that produced a change: some registered
rule matched (first match in priority order) and its substitution succeeded. -/
theorem scanNode_some_inv (rules : List Rule) (g : Graph) (i : Nat) (g2 : Graph)
    (h : scanNode rules g i = .ok (some g2)) :
    ∃ r d, r ∈ rules ∧ r.ruleMatch g i = true ∧ r.rewrite g i = some d ∧
      substituteAt g i d = .ok g2 := by
  by_cases hin : (posOf g.inputs i).isSome
  · simp [scanNode, hin] at h
  · cases hd : g.store[i]? with
    | none => simp [scanNode, hin, hd] at h
    | some vd =>
      cases vd with
      | free t => simp [scanNode, hin, hd] at h
      | const v => simp [scanNode, hin, hd] at h
      | app op args =>
        cases hf : rules.find? (fun r => r.ruleMatch g i) with
        | none => simp [scanNode, hin, hd, hf] at h
        | some r =>
          cases hrw : r.rewrite g i with
          | none => simp [scanNode, hin, hd, hf, hrw] at h
          | some d =>
            cases hsub : substituteAt g i d with
            | error e => simp [scanNode, hin, hd, hf, hrw, hsub] at h
            | ok gx =>
              simp [scanNode, hin, hd, hf, hrw, hsub] at h
              exact ⟨r, d, List.mem_of_find?_eq_some hf,
                by have := List.find?_some hf; simpa using this, hrw, by rw [hsub, h]⟩

/-- Inversion for a scan over a node list that produced a change. -/
theorem scanFrom_some_inv (rules : List Rule) (g : Graph) :
    ∀ (l : List Nat) (g2 : Graph), scanFrom rules g l = .ok (some g2) →
      ∃ r d i, r ∈ rules ∧ r.ruleMatch g i = true ∧ r.rewrite g i = some d ∧
        substituteAt g i d = .ok g2 := by
  intro l
  induction l with
  | nil => intro g2 h; simp [scanFrom] at h
  | cons i rest ih =>
    intro g2 h
    cases hsn : scanNode rules g i with
    | error e => simp [scanFrom, hsn] at h
    | ok og =>
      cases og with
      | none =>
        simp only [scanFrom, hsn] at h
        exact ih g2 h
      | some gx =>
        simp [scanFrom, hsn] at h
        obtain ⟨r, d, hr, hm, hrw, hsub⟩ := scanNode_some_inv rules g i gx hsn
        exact ⟨r, d, i, hr, hm, hrw, by rw [hsub, h]⟩

/-- A changing full scan of a pass comes from one successful rule
substitution. -/
theorem scanOnce_some_inv (rules : List Rule) (g g2 : Graph)
    (h : scanOnce rules g = .ok (some g2)) :
    ∃ r d i, r ∈ rules ∧ r.ruleMatch g i = true ∧ r.rewrite g i = some d ∧
      substituteAt g i d = .ok g2 :=
  scanFrom_some_inv rules g (List.range g.store.length) g2 h

/-- Any reflexive transitive relation that covers single changing scans lifts
through a whole pass run. -/
theorem passLoop_lift (Q : Graph → Graph → Prop)
    (hrefl : ∀ a, Q a a) (htrans : ∀ a b c, Q a b → Q b c → Q a c)
    (rules : List Rule)
    (hstep : ∀ ga gb, scanOnce rules ga = .ok (some gb) → Q ga gb) :
    ∀ (b : Nat) (ga gb : Graph) (cf : Bool) (b2 : Nat),
      passLoop rules b ga = .ok (gb, cf, b2) → Q ga gb := by
  intro b
  induction b with
  | zero =>
    intro ga gb cf b2 h
    simp [passLoop] at h
    rw [← h.1]
    exact hrefl ga
  | succ b' ih =>
    intro ga gb cf b2 h
    cases hscan : scanOnce rules ga with
    | error e => simp [passLoop, hscan] at h
    | ok og =>
      cases og with
      | none =>
        simp [passLoop, hscan] at h
        rw [← h.1]
        exact hrefl ga
      | some gm =>
        simp only [passLoop, hscan] at h
        cases hp : passLoop rules b' gm with
        | error e => rw [hp] at h; simp at h
        | ok t =>
          obtain ⟨g3, c3, b3⟩ := t
          rw [hp] at h
          simp at h
          have h2 := ih gm g3 c3 b3 hp
          rw [← h.1]
          exact htrans ga gm g3 (hstep ga gm hscan) h2

/-- The lift through a whole pipeline cycle. -/
theorem cycleLoop_lift (Q : Graph → Graph → Prop)
    (hrefl : ∀ a, Q a a) (htrans : ∀ a b c, Q a b → Q b c → Q a c) :
    ∀ (P : List (List Rule)),
      (∀ rules ∈ P, ∀ ga gb, scanOnce rules ga = .ok (some gb) → Q ga gb) →
      ∀ (b : Nat) (ga gb : Graph) (cf : Bool) (b2 : Nat),
        cycleLoop P b ga = .ok (gb, cf, b2) → Q ga gb := by
  intro P
  induction P with
  | nil =>
    intro _ b ga gb cf b2 h
    simp [cycleLoop] at h
    rw [← h.1]
    exact hrefl ga
  | cons rules rest ih =>
    intro hstep b ga gb cf b2 h
    cases hp : passLoop rules b ga with
    | error e => simp [cycleLoop, hp] at h
    | ok t =>
      obtain ⟨g1, c1, b1⟩ := t
      have hq1 : Q ga g1 := passLoop_lift Q hrefl htrans rules
        (hstep rules (List.mem_cons_self _ _)) b ga g1 c1 b1 hp
      by_cases hb1 : b1 = 0
      · simp [cycleLoop, hp, hb1] at h
        rw [← h.1]
        exact hq1
      · simp only [cycleLoop, hp, hb1, if_neg hb1] at h
        cases hcy : cycleLoop rest b1 g1 with
        | error e => rw [hcy] at h; simp at h
        | ok t2 =>
          obtain ⟨g2, c2, b2x⟩ := t2
          rw [hcy] at h
          simp at h
          have hq2 := ih (fun rs hr => hstep rs (List.mem_cons_of_mem _ hr))
            b1 g1 g2 c2 b2x hcy
          rw [← h.1]
          exact htrans ga g1 g2 hq1 hq2

/-- The lift through the whole engine loop. -/
theorem engineLoop_lift (Q : Graph → Graph → Prop)
    (hrefl : ∀ a, Q a a) (htrans : ∀ a b c, Q a b → Q b c → Q a c)
    (P : List (List Rule))
    (hstep : ∀ rules ∈ P, ∀ ga gb, scanOnce rules ga = .ok (some gb) → Q ga gb) :
    ∀ (n : Nat) (ga gb : Graph) (cv : Bool),
      engineLoop P n ga = .ok (gb, cv) → Q ga gb := by
  intro n
  induction n with
  | zero =>
    intro ga gb cv h
    simp [engineLoop] at h
    rw [← h.1]
    exact hrefl ga
  | succ m ih =>
    intro ga gb cv h
    cases hcy : cycleLoop P (m + 1) ga with
    | error e => simp [engineLoop, hcy] at h
    | ok t =>
      obtain ⟨g1, c1, b1⟩ := t
      have hq1 : Q ga g1 := cycleLoop_lift Q hrefl htrans P hstep (m + 1) ga g1 c1 b1 hcy
      cases c1 with
      | false =>
        simp [engineLoop, hcy] at h
        rw [← h.1]
        exact hq1
      | true =>
        by_cases hb1 : b1 = 0
        · simp [engineLoop, hcy, hb1] at h
          rw [← h.1]
          exact hq1
        · simp only [engineLoop, hcy, if_neg hb1] at h
          exact htrans ga g1 gb hq1 (ih g1 gb cv h)

/-- A full engine run only ever appends to the arena: the graph it was given
is an untouched prefix of the graph it returns. -/
theorem runEngine_extends (P : List (List Rule)) (n : Nat) (ga gb : Graph) (cv : Bool)
    (h : runEngine P n ga = .ok (gb, cv)) : ∃ ext, gb.store = ga.store ++ ext := by
  refine engineLoop_lift (fun a b => ∃ ext, b.store = a.store ++ ext)
    (fun a => ⟨[], (List.append_nil _).symm⟩)
    (fun a b c ⟨e1, he1⟩ ⟨e2, he2⟩ => ⟨e1 ++ e2, by rw [he2, he1, List.append_assoc]⟩)
    P ?_ n ga gb cv h
  intro rules _ gx gy hscan
  obtain ⟨r, d, i, _, _, _, hsub⟩ := scanOnce_some_inv rules gx gy hscan
  exact substituteAt_extends gx i d gy hsub

/-- Inversion of a successful compilation into its pipeline stages. -/
theorem compile_ok_inv (mode : Mode) (g : Graph) (c : Callable)
    (h : (compile mode g).result = .ok c) :
    g.inputs.Nodup ∧ ∃ gc conv, cloneGraph g = .ok gc ∧
      runEngine mode.pipeline mode.maxRewriteIterations gc = .ok (c.graph, conv) ∧
      schedule c.graph = .ok c.plan ∧ c.inTys = inputSig c.graph := by
  by_cases hnd : g.inputs.Nodup
  · cases hcl : cloneGraph g with
    | error e => simp [compile, hnd, hcl] at h
    | ok gc =>
      cases hrun : runEngine mode.pipeline mode.maxRewriteIterations gc with
      | error e => simp [compile, hnd, hcl, hrun] at h
      | ok t =>
        obtain ⟨g2, conv⟩ := t
        simp [compile, hnd, hcl, hrun] at h
        cases hs : schedule g2 with
        | error e => simp [linkStage, hs] at h
        | ok plan =>
          simp [linkStage, hs] at h
          subst h
          exact ⟨hnd, gc, conv, rfl, hrun, hs, rfl⟩
  · simp [compile, hnd] at h

/-- C5: cloning/substitution never mutates the original graph: the original
arena is an untouched prefix of the result, every freshly constructed node
references only fresh handles (no owner-link aliasing with the original), the
cloned inputs and outputs are all fresh, and in particular the user-authored
graph handed to `compile` survives as an untouched prefix of the compiled
callable's graph because all rewriting happens on the clone. -/
theorem c5_clone_never_mutates_original (g g2 : Graph) (repl : Nat → Option Nat)
    (mode : Mode) (c : Callable) :
    (cloneReplace g repl = .ok g2 →
      (∃ ext, g2.store = g.store ++ ext) ∧
      (∀ k d, g.store.length ≤ k → g2.store[k]? = some d →
        ∀ a ∈ d.argsOf, g.store.length ≤ a) ∧
      (∀ j ∈ g2.inputs, g.store.length ≤ j) ∧
      (∀ j ∈ g2.outputs, g.store.length ≤ j)) ∧
    ((compile mode g).result = .ok c → ∃ ext, c.graph.store = g.store ++ ext) := by
  constructor
  · intro h
    obtain ⟨st, hinv, hst, hins, houts⟩ := cloneReplace_ginv g g2 repl h
    obtain ⟨⟨ext, he⟩, _, hfresh⟩ := hinv
    refine ⟨⟨ext, by rw [hst, he]⟩, ?_, ?_, ?_⟩
    · intro k d hk hget a ha
      exact (hfresh k d hk (by rw [← hst]; exact hget) a ha).1
    · intro j hj
      obtain ⟨_, _, hR⟩ := forall₂_mem_right _ _ _ hins j hj
      exact hR.1
    · intro j hj
      obtain ⟨_, _, hR⟩ := forall₂_mem_right _ _ _ houts j hj
      exact hR.1
  · intro h
    obtain ⟨_, gc, conv, hcl, hrun, _, _⟩ := compile_ok_inv mode g c h
    obtain ⟨e1, he1⟩ := cloneReplace_untouched g gc _ hcl
    obtain ⟨e2, he2⟩ := runEngine_extends _ _ gc c.graph conv hrun
    exact ⟨e1 ++ e2, by rw [he2, he1, List.append_assoc]⟩

/-- Witness for C5: the compile-time clone of the sample graph keeps the
original arena as a prefix, and so does the graph inside the compiled
callable. -/
theorem c5_clone_never_mutates_original_witness :
    (∃ ext, gAddC.store = gAdd.store ++ ext) ∧
    (∃ ext, cAdd.graph.store = gAdd.store ++ ext) :=
  ⟨((c5_clone_never_mutates_original gAdd gAddC (fun _ => none) mEmpty cAdd).1 rfl).1,
    (c5_clone_never_mutates_original gAdd gAddC (fun _ => none) mEmpty cAdd).2 rfl⟩

/-- Boolean membership agrees with list membership. -/
theorem memB_iff : ∀ (l : List Nat) (n : Nat), memB l n = true ↔ n ∈ l := by
  intro l
  induction l with
  | nil => intro n; simp [memB]
  | cons x xs ih =>
    intro n
    by_cases hx : x = n
    · simp [memB, hx]
    · simp only [memB, if_neg hx, ih, List.mem_cons]
      constructor
      · intro h; exact Or.inr h
      · intro h
        cases h with
        | inl h' => exact absurd h'.symm hx
        | inr h' => exact h'

/-- A satisfied search predicate guarantees `find?` succeeds. -/
theorem find?_exists {α : Type} (p : α → Bool) :
    ∀ (l : List α), (∃ x ∈ l, p x = true) → ∃ j, l.find? p = some j := by
  intro l
  induction l with
  | nil => intro h; obtain ⟨x, hx, _⟩ := h; cases hx
  | cons a as ih =>
    intro h
    by_cases hpa : p a = true
    · exact ⟨a, List.find?_cons_of_pos _ hpa⟩
    · obtain ⟨x, hx, hpx⟩ := h
      have hxs : x ∈ as := by
        cases hx with
        | head => exact absurd hpx hpa
        | tail _ h' => exact h'
      obtain ⟨j, hj⟩ := ih ⟨x, hxs, hpx⟩
      exact ⟨j, by rw [List.find?_cons_of_neg _ (by simp [hpa]), hj]⟩

/-- On a list sorted by `≤`, `find?` returns a minimal satisfying element. -/
theorem find?_min_of_sorted (p : Nat → Bool) :
    ∀ (l : List Nat), List.Pairwise (· ≤ ·) l → ∀ i, l.find? p = some i →
      ∀ j ∈ l, p j = true → i ≤ j := by
  intro l
  induction l with
  | nil => intro _ i h; cases h
  | cons a as ih =>
    intro hsort i h j hj hpj
    obtain ⟨hle, hsort'⟩ := List.pairwise_cons.1 hsort
    by_cases hpa : p a = true
    · rw [List.find?_cons_of_pos _ hpa] at h
      cases h
      cases hj with
      | head => omega
      | tail _ hj' => exact hle j hj'
    · rw [List.find?_cons_of_neg _ (by simp [hpa])] at h
      cases hj with
      | head => exact absurd hpj hpa
      | tail _ hj' => exact ih hsort' i h j hj' hpj

/-- The needed-node list is ascending in original insertion order. -/
theorem neededNodes_sorted (g : Graph) : List.Pairwise (· ≤ ·) (neededNodes g) :=
  (List.Pairwise.filter _ (List.pairwise_lt_range _)).imp (fun h => Nat.le_of_lt h)

/-- A ready node is an `Apply` node all of whose inputs are available. -/
theorem readyB_inv (g : Graph) (done : List Nat) (i : Nat)
    (h : readyB g done i = true) :
    ∃ op args, g.store[i]? = some (.app op args) ∧
      ∀ a ∈ args, availB g done a = true := by
  unfold readyB at h
  cases hd : g.store[i]? with
  | none => rw [hd] at h; cases h
  | some vd =>
    cases vd with
    | free t => rw [hd] at h; cases h
    | const v => rw [hd] at h; cases h
    | app op args =>
      rw [hd] at h
      exact ⟨op, args, rfl, fun a ha => by
        have := List.all_eq_true.1 h a ha
        simpa using this⟩

/-- Appending a node that is ready with respect to the current plan preserves
the execution-plan invariant. -/
theorem planValid_append (g : Graph) (acc : List Nat) (i : Nat)
    (hacc : PlanValid g acc) (hready : readyB g acc i = true) :
    PlanValid g (acc ++ [i]) := by
  intro k x hk
  by_cases hklt : k < acc.length
  · rw [List.getElem?_append_left hklt] at hk
    obtain ⟨op, args, hdef, hargs⟩ := hacc k x hk
    refine ⟨op, args, hdef, ?_⟩
    intro a ha
    have htake : (acc ++ [i]).take k = acc.take k := by
      rw [List.take_append_of_le_length (by omega)]
    rw [htake]
    exact hargs a ha
  · by_cases hkeq : k = acc.length
    · subst hkeq
      rw [List.getElem?_concat_length] at hk
      cases hk
      obtain ⟨op, args, hdef, hargs⟩ := readyB_inv g acc i hready
      refine ⟨op, args, hdef, ?_⟩
      intro a ha
      have htake : (acc ++ [i]).take acc.length = acc := by
        rw [List.take_append_of_le_length (by omega), List.take_length]
      rw [htake]
      exact hargs a ha
    · rw [List.getElem?_eq_none (by simp; omega)] at hk
      cases hk

/-- Postcondition of the scheduling loop: a returned plan satisfies the
execution-plan invariant, has no duplicates, covers every needed node, and
contains only nodes it started with or needed nodes. -/
theorem schedLoop_post (g : Graph) (need : List Nat) :
    ∀ (f : Nat) (acc plan : List Nat),
      PlanValid g acc → acc.Nodup →
      schedLoop g need f acc = .ok plan →
      PlanValid g plan ∧ plan.Nodup ∧ (∀ i ∈ need, i ∈ plan) ∧
        (∀ i ∈ plan, i ∈ acc ∨ i ∈ need) := by
  intro f
  induction f with
  | zero => intro acc plan _ _ h; simp [schedLoop] at h
  | succ f' ih =>
    intro acc plan hvalid hnodup h
    by_cases hempty : (need.filter (fun i => !memB acc i)).isEmpty = true
    · simp only [schedLoop, hempty, if_true] at h
      simp at h
      subst h
      refine ⟨hvalid, hnodup, ?_, fun i hi => Or.inl hi⟩
      intro i hi
      by_cases hmem : i ∈ acc
      · exact hmem
      · exfalso
        have hfi : i ∈ need.filter (fun x => !memB acc x) := by
          rw [List.mem_filter]
          refine ⟨hi, ?_⟩
          simp only [Bool.not_eq_true']
          rw [← Bool.not_eq_true]
          intro hcon
          exact hmem ((memB_iff acc i).1 hcon)
        rw [List.isEmpty_iff] at hempty
        rw [hempty] at hfi
        cases hfi
    · simp only [schedLoop, hempty, Bool.false_eq_true, if_false] at h
      cases hf : (need.filter (fun i => !memB acc i)).find? (readyB g acc) with
      | none => rw [hf] at h; simp at h
      | some i =>
        rw [hf] at h
        have hready : readyB g acc i = true := by
          have := List.find?_some hf
          simpa using this
        have himem := List.mem_of_find?_eq_some hf
        rw [List.mem_filter] at himem
        obtain ⟨hineed, hinacc⟩ := himem
        have hnot : i ∉ acc := by
          intro hcon
          rw [← memB_iff] at hcon
          rw [hcon] at hinacc
          cases hinacc
        obtain ⟨hv2, hn2, hcov, hsub⟩ := ih (acc ++ [i]) plan
          (planValid_append g acc i hvalid hready)
          (by
            rw [List.nodup_append]
            exact ⟨hnodup, List.nodup_singleton i, by
              intro a ha hb
              rw [List.mem_singleton] at hb
              subst hb
              exact hnot ha⟩) h
        refine ⟨hv2, hn2, hcov, ?_⟩
        intro x hx
        cases hsub x hx with
        | inl hx' =>
          rw [List.mem_append] at hx'
          cases hx' with
          | inl h1 => exact Or.inl h1
          | inr h2 =>
            rw [List.mem_singleton] at h2
            subst h2
            exact Or.inr hineed
        | inr hx' => exact Or.inr hx'

/-- Inversion of a successful scheduling run: the defensive cycle check and
the missing-input check both passed and the loop produced a valid plan. -/
theorem schedule_ok_inv (g : Graph) (plan : List Nat) (h : schedule g = .ok plan) :
    PlanValid g plan ∧ plan.Nodup ∧ (∀ i ∈ neededNodes g, i ∈ plan) ∧
      (∀ i ∈ plan, i ∈ neededNodes g) ∧
      (neededNodes g).find? (fun i => memB (depReach g i) i) = none ∧
      (reachAll g).find? (fun i => isMissingB g i) = none := by
  cases h1 : (neededNodes g).find? (fun i => memB (depReach g i) i) with
  | some j => simp [schedule, h1] at h
  | none =>
    cases h2 : (reachAll g).find? (fun i => isMissingB g i) with
    | some j => simp [schedule, h1, h2] at h
    | none =>
      simp only [schedule, h1, h2] at h
      obtain ⟨hv, hn, hcov, hsub⟩ := schedLoop_post g (neededNodes g)
        ((neededNodes g).length + 1) [] plan
        (fun k x hk => by cases k <;> cases hk) List.nodup_nil h
      refine ⟨hv, hn, hcov, ?_, rfl, rfl⟩
      intro i hi
      cases hsub i hi with
      | inl h' => cases h'
      | inr h' => exact h'

/-- C6: a graph with a (reachable, needed) cycle is rejected by the scheduler
with `cyclicGraph` naming a node on the cycle, and conversely a graph that was
scheduled into an execution plan has no needed node depending on itself: a
cyclic graph is never silently scheduled. -/
theorem c6_cyclic_graph_rejected (g : Graph) :
    ((∃ i ∈ neededNodes g, memB (depReach g i) i = true) →
      ∃ j, schedule g = .error (.cyclicGraph j) ∧ j ∈ neededNodes g ∧
        memB (depReach g j) j = true) ∧
    (∀ plan, schedule g = .ok plan →
      ∀ i ∈ neededNodes g, memB (depReach g i) i = false) := by
  constructor
  · intro hex
    obtain ⟨j, hj⟩ := find?_exists _ (neededNodes g) hex
    refine ⟨j, ?_, List.mem_of_find?_eq_some hj, by
      have := List.find?_some hj
      simpa using this⟩
    simp [schedule, hj]
  · intro plan h i hi
    obtain ⟨_, _, _, _, hcyc, _⟩ := schedule_ok_inv g plan h
    have := List.find?_eq_none.1 hcyc i hi
    simpa using this

/-- Witness for C6: the self-loop `Apply` is rejected as cyclic by the
scheduler, and a substitution whose replacement depends on the replaced node
fails with `cyclicGraph` rather than building a looping graph. -/
theorem c6_cyclic_graph_rejected_witness :
    (∃ j, schedule gLoop = .error (.cyclicGraph j) ∧ j ∈ neededNodes gLoop ∧
      memB (depReach gLoop j) j = true) ∧
    (substituteAt gAdd 2 (.app addOp [2, 1])).toOption = none :=
  ⟨(c6_cyclic_graph_rejected gLoop).1 ⟨0, by decide, by decide⟩, rfl⟩

/-- C7: scheduling and compilation are deterministic — equal graphs compile
to equal results under the same mode — because the needed nodes are kept in
original insertion order and each scheduling step picks the least ready
candidate, breaking ties by original insertion order. -/
theorem c7_deterministic_scheduling (g1 g2 : Graph) (mode : Mode) :
    (g1 = g2 → compile mode g1 = compile mode g2) ∧
    List.Pairwise (· ≤ ·) (neededNodes g1) ∧
    (∀ (acc : List Nat) (i : Nat),
      ((neededNodes g1).filter (fun x => !memB acc x)).find? (readyB g1 acc) = some i →
      readyB g1 acc i = true ∧
      ∀ j ∈ (neededNodes g1).filter (fun x => !memB acc x),
        readyB g1 acc j = true → i ≤ j) := by
  refine ⟨fun h => by rw [h], neededNodes_sorted g1, ?_⟩
  intro acc i hf
  have hsorted : List.Pairwise (· ≤ ·)
      ((neededNodes g1).filter (fun x => !memB acc x)) :=
    List.Pairwise.filter _ (neededNodes_sorted g1)
  refine ⟨by have := List.find?_some hf; simpa using this, ?_⟩
  exact find?_min_of_sorted _ _ hsorted i hf

/-- Witness for C7: compiling the sample graph twice yields identical output,
and the first scheduling step picks the least (indeed only) ready node. -/
theorem c7_deterministic_scheduling_witness :
    compile mEmpty gAdd = compile mEmpty gAdd ∧ readyB gAdd [] 2 = true :=
  ⟨(c7_deterministic_scheduling gAdd gAdd mEmpty).1 rfl,
    ((c7_deterministic_scheduling gAdd gAdd mEmpty).2.2 [] 2 rfl).1⟩

/-- C8: every execution plan the scheduler produces satisfies the plan
invariant — each node is an `Apply` whose every input is an output of an
earlier plan node, a declared graph input, or a bound constant — and when an
output depends on an undeclared free variable (and the cycle check passes),
scheduling fails with `MissingInputError` naming such a variable. -/
theorem c8_plan_invariant_and_missing_input (g : Graph) :
    (∀ plan, schedule g = .ok plan → PlanValid g plan) ∧
    ((neededNodes g).find? (fun i => memB (depReach g i) i) = none →
      ∀ i, memB (reachAll g) i = true → isMissingB g i = true →
      ∃ j, schedule g = .error (.missingInput j) ∧ memB (reachAll g) j = true ∧
        isMissingB g j = true) := by
  constructor
  · intro plan h
    exact (schedule_ok_inv g plan h).1
  · intro hnocyc i hreach hmiss
    obtain ⟨j, hj⟩ := find?_exists (fun x => isMissingB g x) (reachAll g)
      ⟨i, (memB_iff _ _).1 hreach, hmiss⟩
    refine ⟨j, ?_, (memB_iff _ _).2 (List.mem_of_find?_eq_some hj), by
      have := List.find?_some hj
      simpa using this⟩
    simp [schedule, hnocyc, hj]

/-- Witness for C8: the sample compiled plan satisfies the plan invariant, and
the graph with an undeclared free variable is rejected with `missingInput`
naming it. -/
theorem c8_plan_invariant_and_missing_input_witness :
    PlanValid gAddC cAdd.plan ∧
    (∃ j, schedule gMiss = .error (.missingInput j) ∧ memB (reachAll gMiss) j = true ∧
      isMissingB gMiss j = true) :=
  ⟨(c8_plan_invariant_and_missing_input gAddC).1 cAdd.plan rfl,
    (c8_plan_invariant_and_missing_input gMiss).2 rfl 0 (by decide) (by decide)⟩

/-- Argument evaluation only depends on the evaluator's verdicts on the
argument handles. -/
theorem evalArgsWith_congr (ev1 ev2 : Nat → Option Value) :
    ∀ (l : List Nat), (∀ a ∈ l, ev1 a = ev2 a) →
      evalArgsWith ev1 l = evalArgsWith ev2 l := by
  intro l
  induction l with
  | nil => intro _; rfl
  | cons a as ih =>
    intro h
    show (match ev1 a, evalArgsWith ev1 as with
          | some v, some vs => some (v :: vs)
          | _, _ => none) =
        (match ev2 a, evalArgsWith ev2 as with
          | some v, some vs => some (v :: vs)
          | _, _ => none)
    rw [h a (List.mem_cons_self _ _), ih (fun x hx => h x (List.mem_cons_of_mem _ hx))]

/-- Successful argument evaluation transports along an evaluator that
dominates the first on successes. -/
theorem evalArgsWith_mono (ev1 ev2 : Nat → Option Value)
    (hdom : ∀ a v, ev1 a = some v → ev2 a = some v) :
    ∀ (l : List Nat) (vs : List Value),
      evalArgsWith ev1 l = some vs → evalArgsWith ev2 l = some vs := by
  intro l
  induction l with
  | nil => intro vs h; exact h
  | cons a as ih =>
    intro vs h
    have hstep : (match ev1 a, evalArgsWith ev1 as with
        | some v, some vs => some (v :: vs)
        | _, _ => none) = some vs := h
    cases h1 : ev1 a with
    | none => rw [h1] at hstep; cases hstep
    | some v =>
      cases h2 : evalArgsWith ev1 as with
      | none => rw [h1, h2] at hstep; cases hstep
      | some ws =>
        rw [h1, h2] at hstep
        show (match ev2 a, evalArgsWith ev2 as with
              | some v, some vs => some (v :: vs)
              | _, _ => none) = some vs
        rw [hdom a v h1, ih ws h2]
        exact hstep

/-- Successful interpretation is monotone in the fuel. -/
theorem interpVar_mono (g : Graph) (vals : List Value) :
    ∀ (f f' i : Nat) (v : Value), f ≤ f' → interpVar g vals f i = some v →
      interpVar g vals f' i = some v := by
  intro f
  induction f with
  | zero => intro f' i v _ h; cases h
  | succ f ih =>
    intro f' i v hle h
    obtain ⟨f2, rfl⟩ : ∃ k, f' = k + 1 := ⟨f' - 1, by omega⟩
    cases hpos : posOf g.inputs i with
    | some k =>
      simp only [interpVar, hpos] at h ⊢
      exact h
    | none =>
      cases hd : g.store[i]? with
      | none => simp [interpVar, hpos, hd] at h
      | some vd =>
        cases vd with
        | free t => simp [interpVar, hpos, hd] at h
        | const v2 =>
          simp only [interpVar, hpos, hd] at h ⊢
          exact h
        | app op args =>
          simp only [interpVar, hpos, hd] at h ⊢
          cases he : evalArgsWith (fun a => interpVar g vals f a) args with
          | none => rw [he] at h; cases h
          | some vs =>
            rw [he] at h
            have he2 : evalArgsWith (fun a => interpVar g vals f2 a) args = some vs :=
              evalArgsWith_mono _ _ (fun a w hw => ih f2 a w (by omega) hw) args vs he
            rw [he2]
            exact h

/-- Interpreted output lists are unique. -/
theorem evalsOuts_det (g : Graph) (vals outs1 outs2 : List Value)
    (h1 : EvalsOuts g vals outs1) (h2 : EvalsOuts g vals outs2) : outs1 = outs2 := by
  obtain ⟨f1, hf1⟩ := h1
  obtain ⟨f2, hf2⟩ := h2
  have hm1 : evalArgsWith (fun o => interpVar g vals (max f1 f2) o) g.outputs =
      some outs1 :=
    evalArgsWith_mono _ _
      (fun a w hw => interpVar_mono g vals f1 (max f1 f2) a w (by omega) hw)
      g.outputs outs1 hf1
  have hm2 : evalArgsWith (fun o => interpVar g vals (max f1 f2) o) g.outputs =
      some outs2 :=
    evalArgsWith_mono _ _
      (fun a w hw => interpVar_mono g vals f2 (max f1 f2) a w (by omega) hw)
      g.outputs outs2 hf2
  rw [hm1] at hm2
  exact Option.some.injEq _ _ ▸ hm2.symm ▸ rfl

/-- A successful direct interpretation certifies the argument check and the
output relation. -/
theorem interpret_some_inv (g : Graph) (vals outs : List Value)
    (h : interpret g vals = some outs) :
    valsTyped vals (inputSig g) = true ∧ EvalsOuts g vals outs := by
  by_cases ht : valsTyped vals (inputSig g) = true
  · refine ⟨ht, g.store.length + 1, ?_⟩
    unfold interpret at h
    rw [if_pos ht] at h
    exact h
  · unfold interpret at h
    rw [if_neg ht] at h
    cases h

/-- Pointwise interpretability of a handle list composes into one sufficient
fuel for the whole list. -/
theorem forall₂_evals_fuel (g : Graph) (vals : List Value) :
    ∀ (l : List Nat) (vs : List Value),
      List.Forall₂ (fun a v => EvalsVar g vals a v) l vs →
      ∃ f, evalArgsWith (fun a => interpVar g vals f a) l = some vs := by
  intro l vs h
  induction h with
  | nil => exact ⟨0, rfl⟩
  | cons hr hrest ih =>
    rename_i a v as vs'
    obtain ⟨f1, hf1⟩ := hr
    obtain ⟨f2, hf2⟩ := ih
    refine ⟨max f1 f2, ?_⟩
    show (match interpVar g vals (max f1 f2) a,
          evalArgsWith (fun x => interpVar g vals (max f1 f2) x) as with
          | some v, some vs => some (v :: vs)
          | _, _ => none) = some (v :: vs')
    rw [interpVar_mono g vals f1 (max f1 f2) a v (by omega) hf1]
    rw [evalArgsWith_mono _ _
      (fun x w hw => interpVar_mono g vals f2 (max f1 f2) x w (by omega) hw) as vs' hf2]

/-- Membership in an extended visiting list. -/
theorem memB_cons_of (i key : Nat) (V : List Nat) (h : memB V key = true) :
    memB (i :: V) key = true := by
  unfold memB
  by_cases hik : i = key
  · rw [if_pos hik]
  · rw [if_neg hik]; exact h

/-- The head of a visiting list is in it. -/
theorem memB_cons_self (i : Nat) (V : List Nat) : memB (i :: V) i = true := by
  unfold memB
  rw [if_pos rfl]

/-- Generic preservation through `cloneList`: a state property preserved by
each element step is preserved by the whole run. -/
theorem cloneList_pres (Q : CState → Prop)
    (cl : Nat → CState → Except GraphErr (Nat × CState))
    (hcl : ∀ a st j st2, Q st → cl a st = .ok (j, st2) → Q st2) :
    ∀ (as : List Nat) (st : CState) (js : List Nat) (st2 : CState),
      Q st → cloneList cl as st = .ok (js, st2) → Q st2 := by
  intro as
  induction as with
  | nil =>
    intro st js st2 hQ h
    simp [cloneList] at h
    rw [← h.2]
    exact hQ
  | cons a as ih =>
    intro st js st2 hQ h
    cases hc : cl a st with
    | error e => simp [cloneList, hc] at h
    | ok t =>
      obtain ⟨j, st1⟩ := t
      simp only [cloneList, hc] at h
      cases hrest : cloneList cl as st1 with
      | error e => rw [hrest] at h; simp at h
      | ok t2 =>
        obtain ⟨js1, stf⟩ := t2
        rw [hrest] at h
        simp at h
        rw [← h.2]
        exact ih st1 js1 stf (hcl a st j st1 hQ hc) hrest

/-- Gray nodes are never memoised: a node on the visiting list that is absent
from the memo table on entry is still absent on exit. -/
theorem cloneAux_gray (g : Graph) (repl : Nat → Option Nat) :
    ∀ (fuel : Nat) (V : List Nat) (i : Nat) (st : CState) (j : Nat) (st2 : CState)
      (key : Nat),
      cloneAux g repl fuel V i st = .ok (j, st2) →
      memB V key = true → alook st.memo key = none → alook st2.memo key = none := by
  intro fuel
  induction fuel with
  | zero => intro V i st j st2 key h _ _; cases h
  | succ f ih =>
    intro V i st j st2 key h hkey habs
    cases hm : alook st.memo i with
    | some j0 =>
      simp [cloneAux, hm] at h
      rw [← h.2]
      exact habs
    | none =>
      cases hgray : memB V i with
      | true => simp [cloneAux, hm, hgray] at h
      | false =>
        have hik : i ≠ key := by
          intro hcon
          rw [hcon, hkey] at hgray
          cases hgray
        cases hr : repl i with
        | some r =>
          simp only [cloneAux, hm, hgray, hr, Bool.false_eq_true, if_false] at h
          cases hrec : cloneAux g repl f (i :: V) r st with
          | error e => rw [hrec] at h; simp at h
          | ok t =>
            obtain ⟨j1, st1⟩ := t
            rw [hrec] at h
            simp at h
            rw [← h.2]
            show alook ((i, j1) :: st1.memo) key = none
            unfold alook
            rw [if_neg hik]
            exact ih (i :: V) r st j1 st1 key hrec (memB_cons_of i key V hkey) habs
        | none =>
          cases hin : (posOf g.inputs i).isSome with
          | true =>
            simp only [cloneAux, hm, hgray, hr, hin, Bool.false_eq_true, if_false,
              if_true] at h
            simp at h
            rw [← h.2]
            show alook ((i, st.cstore.length) :: st.memo) key = none
            unfold alook
            rw [if_neg hik]
            exact habs
          | false =>
            cases hd : g.store[i]? with
            | none => simp [cloneAux, hm, hgray, hr, hin, hd] at h
            | some vd =>
              cases vd with
              | free t =>
                simp only [cloneAux, hm, hgray, hr, hin, Bool.false_eq_true,
                  if_false, hd] at h
                simp at h
                rw [← h.2]
                show alook ((i, st.cstore.length) :: st.memo) key = none
                unfold alook
                rw [if_neg hik]
                exact habs
              | const v =>
                simp only [cloneAux, hm, hgray, hr, hin, Bool.false_eq_true,
                  if_false, hd] at h
                simp at h
                rw [← h.2]
                show alook ((i, st.cstore.length) :: st.memo) key = none
                unfold alook
                rw [if_neg hik]
                exact habs
              | app op args =>
                simp only [cloneAux, hm, hgray, hr, hin, Bool.false_eq_true,
                  if_false, hd] at h
                cases hcl2 : cloneList (fun a st2 => cloneAux g repl f (i :: V) a st2)
                    args st with
                | error e => rw [hcl2] at h; simp at h
                | ok t =>
                  obtain ⟨js, st1⟩ := t
                  rw [hcl2] at h
                  simp at h
                  rw [← h.2]
                  show alook ((i, st1.cstore.length) :: st1.memo) key = none
                  unfold alook
                  rw [if_neg hik]
                  exact cloneList_pres (fun stx => alook stx.memo key = none) _
                    (fun a st' j' st2' hq hh =>
                      ih (i :: V) a st' j' st2' key hh (memB_cons_of i key V hkey) hq)
                    args st js st1 habs hcl2

/-- The mirror relation is stable under conservative extension of in-range
slots. -/
theorem mirrorE_CExt (g : Graph) (st st2 : CState) (i j : Nat)
    (h : MirrorE g st i j) (hj : j < st.cstore.length) (hext : CExt st st2) :
    MirrorE g st2 i j := by
  cases hpos : posOf g.inputs i with
  | some k =>
    simp only [MirrorE, hpos] at h ⊢
    rw [cstore_get_CExt st st2 j hext hj]
    exact h
  | none =>
    cases hd : g.store[i]? with
    | none => simp only [MirrorE, hpos, hd] at h
    | some vd =>
      cases vd with
      | free t =>
        simp only [MirrorE, hpos, hd] at h ⊢
        rw [cstore_get_CExt st st2 j hext hj]
        exact h
      | const v =>
        simp only [MirrorE, hpos, hd] at h ⊢
        rw [cstore_get_CExt st st2 j hext hj]
        exact h
      | app op args =>
        simp only [MirrorE, hpos, hd] at h ⊢
        obtain ⟨js, hget, hf⟩ := h
        refine ⟨js, ?_, ?_⟩
        · rw [cstore_get_CExt st st2 j hext hj]
          exact hget
        · exact hf.imp (fun a b hab => alook_CExt st st2 a b hext hab)

/-- Cloning with the empty replacement mapping keeps every memo entry a
faithful mirror of its original node, and keeps the clone map injective. -/
theorem cloneAux_minv (g : Graph) :
    ∀ (fuel : Nat) (V : List Nat) (i : Nat) (st : CState) (j : Nat) (st2 : CState),
      GInv g st → MInv g st → VNodup st →
      cloneAux g (fun _ => none) fuel V i st = .ok (j, st2) →
      MInv g st2 ∧ VNodup st2 := by
  intro fuel
  induction fuel with
  | zero => intro V i st j st2 _ _ _ h; cases h
  | succ f ih =>
    intro V i st j st2 hgi hmv hvn h
    cases hm : alook st.memo i with
    | some j0 =>
      simp [cloneAux, hm] at h
      rw [← h.2]
      exact ⟨hmv, hvn⟩
    | none =>
      cases hgray : memB V i with
      | true => simp [cloneAux, hm, hgray] at h
      | false =>
        cases hin : (posOf g.inputs i).isSome with
        | true =>
          simp only [cloneAux, hm, hgray, hin, Bool.false_eq_true, if_false,
            if_true] at h
          simp at h
          obtain ⟨k, hk⟩ := Option.isSome_iff_exists.1 hin
          rw [← h.2]
          constructor
          · intro p hp
            cases hp with
            | head =>
              simp only [MirrorE, hk]
              show (st.cstore ++ [VarDef.free (inputTy g i)])[st.cstore.length]? =
                some (.free (inputTy g i))
              exact List.getElem?_concat_length _ _
            | tail _ hp' =>
              exact mirrorE_CExt g st _ p.1 p.2 (hmv p hp') (hgi.2.1 p hp').2
                (cext_push st st i _ (CExt_refl st) hm)
          · intro p q hp hq heq
            cases hp with
            | head =>
              cases hq with
              | head => rfl
              | tail _ hq' =>
                have := (hgi.2.1 q hq').2
                simp at heq
                omega
            | tail _ hp' =>
              cases hq with
              | head =>
                have := (hgi.2.1 p hp').2
                simp at heq
                omega
              | tail _ hq' => exact hvn p q hp' hq' heq
        | false =>
          have hposn : posOf g.inputs i = none := by
            cases hq : posOf g.inputs i with
            | none => rfl
            | some k => rw [hq] at hin; simp at hin
          cases hd : g.store[i]? with
          | none => simp [cloneAux, hm, hgray, hin, hd] at h
          | some vd =>
            cases vd with
            | free t =>
              simp only [cloneAux, hm, hgray, hin, Bool.false_eq_true,
                if_false, hd] at h
              simp at h
              rw [← h.2]
              constructor
              · intro p hp
                cases hp with
                | head =>
                  simp only [MirrorE, hposn, hd]
                  show (st.cstore ++ [VarDef.free t])[st.cstore.length]? =
                    some (.free t)
                  exact List.getElem?_concat_length _ _
                | tail _ hp' =>
                  exact mirrorE_CExt g st _ p.1 p.2 (hmv p hp') (hgi.2.1 p hp').2
                    (cext_push st st i _ (CExt_refl st) hm)
              · intro p q hp hq heq
                cases hp with
                | head =>
                  cases hq with
                  | head => rfl
                  | tail _ hq' =>
                    have := (hgi.2.1 q hq').2
                    simp at heq
                    omega
                | tail _ hp' =>
                  cases hq with
                  | head =>
                    have := (hgi.2.1 p hp').2
                    simp at heq
                    omega
                  | tail _ hq' => exact hvn p q hp' hq' heq
            | const v =>
              simp only [cloneAux, hm, hgray, hin, Bool.false_eq_true,
                if_false, hd] at h
              simp at h
              rw [← h.2]
              constructor
              · intro p hp
                cases hp with
                | head =>
                  simp only [MirrorE, hposn, hd]
                  show (st.cstore ++ [VarDef.const v])[st.cstore.length]? =
                    some (.const v)
                  exact List.getElem?_concat_length _ _
                | tail _ hp' =>
                  exact mirrorE_CExt g st _ p.1 p.2 (hmv p hp') (hgi.2.1 p hp').2
                    (cext_push st st i _ (CExt_refl st) hm)
              · intro p q hp hq heq
                cases hp with
                | head =>
                  cases hq with
                  | head => rfl
                  | tail _ hq' =>
                    have := (hgi.2.1 q hq').2
                    simp at heq
                    omega
                | tail _ hp' =>
                  cases hq with
                  | head =>
                    have := (hgi.2.1 p hp').2
                    simp at heq
                    omega
                  | tail _ hq' => exact hvn p q hp' hq' heq
            | app op args =>
              simp only [cloneAux, hm, hgray, hin, Bool.false_eq_true,
                if_false, hd] at h
              cases hcl2 : cloneList
                  (fun a st2 => cloneAux g (fun _ => none) f (i :: V) a st2)
                  args st with
              | error e => rw [hcl2] at h; simp at h
              | ok t =>
                obtain ⟨js, st1⟩ := t
                rw [hcl2] at h
                simp at h
                obtain ⟨hgi1, hext1, hR⟩ := cloneList_ind _
                  (fun stx => GInv g stx ∧ MInv g stx ∧ VNodup stx)
                  (fun a b stx => g.store.length ≤ b ∧ b < stx.cstore.length ∧
                    alook stx.memo a = some b)
                  (by
                    intro a b s1 s2 hRx hext
                    exact ⟨hRx.1, lt_of_lt_of_le hRx.2.1 (CExt_length s1 s2 hext),
                      alook_CExt s1 s2 a b hext hRx.2.2⟩)
                  (by
                    intro a st' j' st2' hP hh
                    obtain ⟨hg2', hext', hR'⟩ := cloneAux_ginv g (fun _ => none) f
                      (i :: V) a st' j' st2' hP.1 hh
                    obtain ⟨hm2', hv2'⟩ := ih (i :: V) a st' j' st2' hP.1 hP.2.1
                      hP.2.2 hh
                    exact ⟨⟨hg2', hm2', hv2'⟩, hext', hR'⟩)
                  args st js st1 ⟨hgi, hmv, hvn⟩ hcl2
                obtain ⟨hgi1', hmv1, hvn1⟩ := hgi1
                have habs1 : alook st1.memo i = none :=
                  cloneList_pres (fun stx => alook stx.memo i = none) _
                    (fun a st' j' st2' hq hh =>
                      cloneAux_gray g (fun _ => none) f (i :: V) a st' j' st2' i hh
                        (memB_cons_self i V) hq)
                    args st js st1 hm hcl2
                rw [← h.2]
                constructor
                · intro p hp
                  cases hp with
                  | head =>
                    simp only [MirrorE, hposn, hd]
                    refine ⟨js, ?_, ?_⟩
                    · show (st1.cstore ++ [VarDef.app op js])[st1.cstore.length]? =
                        some (.app op js)
                      exact List.getElem?_concat_length _ _
                    · refine hR.imp ?_
                      intro a b hab
                      have hne : i ≠ a := by
                        intro hcon
                        rw [← hcon] at hab
                        rw [habs1] at hab
                        cases hab.2.2
                      show alook ((i, st1.cstore.length) :: st1.memo) a = some b
                      unfold alook
                      rw [if_neg hne]
                      exact hab.2.2
                  | tail _ hp' =>
                    exact mirrorE_CExt g st1 _ p.1 p.2 (hmv1 p hp')
                      (hgi1'.2.1 p hp').2
                      (cext_push st1 st1 i _ (CExt_refl st1) habs1)
                · intro p q hp hq heq
                  cases hp with
                  | head =>
                    cases hq with
                    | head => rfl
                    | tail _ hq' =>
                      have := (hgi1'.2.1 q hq').2
                      simp at heq
                      omega
                  | tail _ hp' =>
                    cases hq with
                    | head =>
                      have := (hgi1'.2.1 p hp').2
                      simp at heq
                      omega
                    | tail _ hq' => exact hvn1 p q hp' hq' heq

/-- A successful compile-time clone yields a final state that mirrors the
original graph, with the fresh inputs and outputs memoised pointwise. -/
theorem cloneGraph_facts (g g2 : Graph) (h : cloneGraph g = .ok g2) :
    ∃ st : CState, GInv g st ∧ MInv g st ∧ VNodup st ∧ g2.store = st.cstore ∧
      List.Forall₂ (fun a b => alook st.memo a = some b) g.inputs g2.inputs ∧
      List.Forall₂ (fun a b => alook st.memo a = some b) g.outputs g2.outputs := by
  unfold cloneGraph at h
  cases h1 : cloneList (fun a st => cloneAux g (fun _ => none) (g.store.length + 2) [] a st)
      g.inputs ⟨g.store, []⟩ with
  | error e => simp [cloneReplace, h1] at h
  | ok t1 =>
    obtain ⟨ins, st1⟩ := t1
    cases h2 : cloneList (fun a st => cloneAux g (fun _ => none) (g.store.length + 2) [] a st)
        g.outputs st1 with
    | error e => simp [cloneReplace, h1, h2] at h
    | ok t2 =>
      obtain ⟨outs, st2⟩ := t2
      simp [cloneReplace, h1, h2] at h
      have hmono : ∀ (a b : Nat) (s1 s2 : CState),
          (g.store.length ≤ b ∧ b < s1.cstore.length ∧ alook s1.memo a = some b) →
          CExt s1 s2 →
          (g.store.length ≤ b ∧ b < s2.cstore.length ∧ alook s2.memo a = some b) := by
        intro a b s1 s2 hR hext
        exact ⟨hR.1, lt_of_lt_of_le hR.2.1 (CExt_length s1 s2 hext),
          alook_CExt s1 s2 a b hext hR.2.2⟩
      have hcl : ∀ i st j st2,
          (GInv g st ∧ MInv g st ∧ VNodup st) →
          cloneAux g (fun _ => none) (g.store.length + 2) [] i st = .ok (j, st2) →
          (GInv g st2 ∧ MInv g st2 ∧ VNodup st2) ∧ CExt st st2 ∧
            (g.store.length ≤ j ∧ j < st2.cstore.length ∧ alook st2.memo i = some j) := by
        intro i st j st2 hP hh
        obtain ⟨hg2, hext, hR⟩ := cloneAux_ginv g (fun _ => none)
          (g.store.length + 2) [] i st j st2 hP.1 hh
        obtain ⟨hm2, hv2⟩ := cloneAux_minv g (g.store.length + 2) [] i st j st2
          hP.1 hP.2.1 hP.2.2 hh
        exact ⟨⟨hg2, hm2, hv2⟩, hext, hR⟩
      have hinit : GInv g ⟨g.store, []⟩ ∧ MInv g ⟨g.store, []⟩ ∧ VNodup ⟨g.store, []⟩ :=
        ⟨ginv_init g, fun p hp => absurd hp (List.not_mem_nil _),
          fun p q hp _ _ => absurd hp (List.not_mem_nil _)⟩
      obtain ⟨hP1, _, hins⟩ := cloneList_ind _ _ _ hmono hcl
        g.inputs ⟨g.store, []⟩ ins st1 hinit h1
      obtain ⟨hP2, hext2, houts⟩ := cloneList_ind _ _ _ hmono hcl
        g.outputs st1 outs st2 hP1 h2
      refine ⟨st2, hP2.1, hP2.2.1, hP2.2.2, by rw [← h], ?_, ?_⟩
      · rw [← h]
        exact (hins.imp (fun a b hab => hmono a b st1 st2 hab hext2)).imp
          (fun a b hab => hab.2.2)
      · rw [← h]
        exact houts.imp (fun a b hab => hab.2.2)

/-- A handle has a position in a list exactly when it is a member. -/
theorem posOf_eq_none_iff : ∀ (l : List Nat) (n : Nat), posOf l n = none ↔ n ∉ l := by
  intro l
  induction l with
  | nil => intro n; simp [posOf]
  | cons x xs ih =>
    intro n
    by_cases hx : x = n
    · simp [posOf, hx]
    · simp only [posOf, if_neg hx, List.mem_cons]
      constructor
      · intro h hc
        cases hc with
        | inl h' => exact hx h'.symm
        | inr h' =>
          cases hp : posOf xs n with
          | none => exact (ih n).1 hp h'
          | some k => rw [hp] at h; cases h
      · intro h
        rw [(ih n).2 (fun hc => h (Or.inr hc))]
        rfl

/-- A found position is within the list bounds. -/
theorem posOf_lt : ∀ (l : List Nat) (n k : Nat), posOf l n = some k → k < l.length := by
  intro l
  induction l with
  | nil => intro n k h; cases h
  | cons x xs ih =>
    intro n k h
    by_cases hx : x = n
    · simp [posOf, hx] at h
      simp only [List.length_cons]
      omega
    · simp only [posOf, if_neg hx] at h
      cases hp : posOf xs n with
      | none => rw [hp] at h; cases h
      | some k' =>
        rw [hp] at h
        simp at h
        have := ih n k' hp
        simp only [List.length_cons]
        omega

/-- Distinct originals have distinct clones (injectivity through lookups). -/
theorem alook_inj_of_vnodup (st : CState) (hv : VNodup st) (a a' j : Nat)
    (h1 : alook st.memo a = some j) (h2 : alook st.memo a' = some j) : a = a' :=
  hv (a, j) (a', j) (alook_mem _ _ _ h1) (alook_mem _ _ _ h2) rfl

/-- Cloning preserves first-occurrence positions: the position of a clone
among the cloned handles equals the position of its original among the
original handles. -/
theorem posOf_corr (st : CState) (hv : VNodup st) :
    ∀ (l l2 : List Nat) (i j : Nat),
      List.Forall₂ (fun a b => alook st.memo a = some b) l l2 →
      alook st.memo i = some j →
      posOf l2 j = posOf l i := by
  intro l l2 i j hf hij
  induction hf with
  | nil => rfl
  | cons hab hrest ih =>
    rename_i a b l' l2'
    by_cases hai : a = i
    · subst hai
      rw [hij] at hab
      have hbj : b = j := by
        have := hab
        simp at this
        exact this.symm
      simp [posOf, hbj]
    · have hbj : b ≠ j := by
        intro hcon
        subst hcon
        exact hai (alook_inj_of_vnodup st hv a i b hab hij)
      simp only [posOf, if_neg hbj, if_neg hai]
      rw [ih]

/-- Argument evaluation along pointwise-equal evaluators on corresponding
handle lists. -/
theorem evalArgsWith_forall₂_congr (ev1 ev2 : Nat → Option Value) :
    ∀ (l1 l2 : List Nat),
      List.Forall₂ (fun a b => ev2 b = ev1 a) l1 l2 →
      evalArgsWith ev2 l2 = evalArgsWith ev1 l1 := by
  intro l1 l2 hf
  induction hf with
  | nil => rfl
  | cons hab hrest ih =>
    rename_i a b l' l2'
    show (match ev2 b, evalArgsWith ev2 l2' with
          | some v, some vs => some (v :: vs)
          | _, _ => none) =
        (match ev1 a, evalArgsWith ev1 l' with
          | some v, some vs => some (v :: vs)
          | _, _ => none)
    rw [hab, ih]

/-- Pointwise upgrade of `Forall₂` using left membership. -/
theorem forall₂_imp_mem {α β : Type} (R S : α → β → Prop) :
    ∀ (l1 : List α) (l2 : List β), List.Forall₂ R l1 l2 →
      (∀ a b, a ∈ l1 → R a b → S a b) → List.Forall₂ S l1 l2 := by
  intro l1 l2 hf
  induction hf with
  | nil => intro _; exact List.Forall₂.nil
  | cons hab hrest ih =>
    intro h
    exact List.Forall₂.cons (h _ _ (List.mem_cons_self _ _) hab)
      (ih (fun a b ha hr => h a b (List.mem_cons_of_mem _ ha) hr))

/-- Mapping corresponding lists through pointwise-equal functions. -/
theorem map_eq_of_forall₂ {α β γ : Type} (f1 : α → γ) (f2 : β → γ) :
    ∀ (l1 : List α) (l2 : List β),
      List.Forall₂ (fun a b => f2 b = f1 a) l1 l2 →
      l2.map f2 = l1.map f1 := by
  intro l1 l2 hf
  induction hf with
  | nil => rfl
  | cons hab hrest ih =>
    show _ :: _ = _ :: _
    rw [hab, ih]

/-- Simulation: a cloned handle interprets exactly as its original, at every
fuel, for every assignment of values to the (position-corresponding) declared
inputs. -/
theorem clone_sim (g : Graph) (st : CState) (ins outs : List Nat)
    (_hgi : GInv g st) (hmv : MInv g st) (hvn : VNodup st)
    (hins : List.Forall₂ (fun a b => alook st.memo a = some b) g.inputs ins)
    (vals : List Value) :
    ∀ (f i j : Nat), alook st.memo i = some j →
      interpVar ⟨st.cstore, ins, outs⟩ vals f j = interpVar g vals f i := by
  intro f
  induction f with
  | zero => intro i j _; rfl
  | succ f ih =>
    intro i j hij
    have hpos := posOf_corr st hvn g.inputs ins i j hins hij
    show (match posOf ins j with
          | some k => vals[k]?
          | none =>
            match st.cstore[j]? with
            | some (.free _) => none
            | some (.const v) => some v
            | some (.app op args) =>
              match evalArgsWith
                  (fun a => interpVar ⟨st.cstore, ins, outs⟩ vals f a) args with
              | some vs => some (op.exec vs)
              | none => none
            | none => none) =
        (match posOf g.inputs i with
          | some k => vals[k]?
          | none =>
            match g.store[i]? with
            | some (.free _) => none
            | some (.const v) => some v
            | some (.app op args) =>
              match evalArgsWith (fun a => interpVar g vals f a) args with
              | some vs => some (op.exec vs)
              | none => none
            | none => none)
    rw [hpos]
    cases hposcase : posOf g.inputs i with
    | some k => rfl
    | none =>
      have hmir := hmv (i, j) (alook_mem _ _ _ hij)
      cases hd : g.store[i]? with
      | none =>
        exfalso
        simp only [MirrorE, hposcase, hd] at hmir
      | some vd =>
        cases vd with
        | free t =>
          have hget : st.cstore[j]? = some (.free t) := by
            have := hmir
            simp only [MirrorE, hposcase, hd] at this
            exact this
          rw [hget]
        | const v =>
          have hget : st.cstore[j]? = some (.const v) := by
            have := hmir
            simp only [MirrorE, hposcase, hd] at this
            exact this
          rw [hget]
        | app op args =>
          have hmir2 : ∃ js, st.cstore[j]? = some (.app op js) ∧
              List.Forall₂ (fun a b => alook st.memo a = some b) args js := by
            have := hmir
            simp only [MirrorE, hposcase, hd] at this
            exact this
          obtain ⟨js, hget, hf2⟩ := hmir2
          rw [hget]
          have heq : evalArgsWith
              (fun a => interpVar ⟨st.cstore, ins, outs⟩ vals f a) js =
              evalArgsWith (fun a => interpVar g vals f a) args :=
            evalArgsWith_forall₂_congr _ _ args js
              (hf2.imp (fun a b hab => ih a b hab))
          show (match evalArgsWith
                (fun a => interpVar ⟨st.cstore, ins, outs⟩ vals f a) js with
              | some vs => some (op.exec vs)
              | none => none) =
            (match evalArgsWith (fun a => interpVar g vals f a) args with
              | some vs => some (op.exec vs)
              | none => none)
          rw [heq]

/-- The compile-time clone preserves the input signature and the interpreted
output values. -/
theorem cloneGraph_pres (g g2 : Graph) (h : cloneGraph g = .ok g2) :
    inputSig g2 = inputSig g ∧
    ∀ vals outs, EvalsOuts g vals outs → EvalsOuts g2 vals outs := by
  obtain ⟨st, hgi, hmv, hvn, hstore, hins, houts⟩ := cloneGraph_facts g g2 h
  have hg2eq : (⟨st.cstore, g2.inputs, g2.outputs⟩ : Graph) = g2 := by
    rw [← hstore]
  constructor
  · show g2.inputs.map (inputTy g2) = g.inputs.map (inputTy g)
    refine map_eq_of_forall₂ _ _ _ _ (forall₂_imp_mem _ _ _ _ hins ?_)
    intro a b ha hab
    have hposa : ∃ k, posOf g.inputs a = some k := by
      cases hq : posOf g.inputs a with
      | none => exact absurd ha ((posOf_eq_none_iff _ _).1 hq)
      | some k => exact ⟨k, rfl⟩
    obtain ⟨k, hk⟩ := hposa
    have hmir := hmv (a, b) (alook_mem _ _ _ hab)
    have hget : st.cstore[b]? = some (.free (inputTy g a)) := by
      have := hmir
      simp only [MirrorE, hk] at this
      exact this
    show inputTy g2 b = inputTy g a
    unfold inputTy
    rw [← hg2eq]
    show (match st.cstore[b]? with
          | some (.free t) => t
          | some (.const v) => v.ty
          | _ => Ty.tnat) = _
    rw [hget]
    rfl
  · intro vals outs hev
    obtain ⟨f, hf⟩ := hev
    refine ⟨f, ?_⟩
    have hcong : evalArgsWith (fun o => interpVar g2 vals f o) g2.outputs =
        evalArgsWith (fun o => interpVar g vals f o) g.outputs := by
      refine evalArgsWith_forall₂_congr _ _ g.outputs g2.outputs
        (houts.imp (fun a b hab => ?_))
      have := clone_sim g st g2.inputs g2.outputs hgi hmv hvn hins vals f a b hab
      rw [hg2eq] at this
      exact this
    rw [hcong]
    exact hf

/-- When every registered rule is locally sound, a whole engine run preserves
the input signature and the interpreted output values. -/
theorem runEngine_pres (P : List (List Rule)) (n : Nat)
    (hsound : ∀ rules ∈ P, ∀ r ∈ rules, SoundRule r) (ga gb : Graph) (cv : Bool)
    (h : runEngine P n ga = .ok (gb, cv)) : Pres ga gb := by
  refine engineLoop_lift Pres (fun a => ⟨rfl, fun vals outs hv => hv⟩) ?_ P ?_ n ga gb cv h
  · intro a b cg h1 h2
    exact ⟨by rw [h2.1, h1.1], fun vals outs hv => h2.2 vals outs (h1.2 vals outs hv)⟩
  · intro rules hmem gx gy hscan
    obtain ⟨r, d, i, hr, hmatch, hrw, hsub⟩ := scanOnce_some_inv rules gx gy hscan
    exact hsound rules hmem r hr gx i d gy hmatch hrw hsub

/-- A passed argument check equates the lengths. -/
theorem valsTyped_length : ∀ (vs : List Value) (ts : List Ty),
    valsTyped vs ts = true → vs.length = ts.length := by
  intro vs
  induction vs with
  | nil =>
    intro ts h
    cases ts with
    | nil => rfl
    | cons t ts' => simp [valsTyped] at h
  | cons v vs ih =>
    intro ts h
    cases ts with
    | nil => simp [valsTyped] at h
    | cons t ts' =>
      have h2 : (if v.ty = t then valsTyped vs ts' else false) = true := h
      by_cases hvt : v.ty = t
      · rw [if_pos hvt] at h2
        simp [List.length_cons, ih ts' h2]
      · rw [if_neg hvt] at h2
        cases h2

/-- A start node stays in every backward-reachability iterate. -/
theorem reach_self (g : Graph) :
    ∀ (fl : Nat) (s : List Nat) (x : Nat), x ∈ s → x ∈ reachIter g fl s := by
  intro fl
  induction fl with
  | zero => intro s x hx; exact hx
  | succ f ih =>
    intro s x hx
    show x ∈ reachIter g f (expandR g s)
    refine ih _ x ?_
    unfold expandR
    exact List.mem_append.2 (Or.inl hx)

/-- Needed nodes are not declared inputs. -/
theorem neededNodes_noninput (g : Graph) (i : Nat) (h : i ∈ neededNodes g) :
    posOf g.inputs i = none := by
  unfold neededNodes at h
  rw [List.mem_filter] at h
  have hp := h.2
  rw [Bool.and_eq_true, Bool.and_eq_true] at hp
  obtain ⟨⟨_, h2⟩, _⟩ := hp
  rw [Bool.not_eq_true'] at h2
  cases hq : posOf g.inputs i with
  | none => rfl
  | some k => rw [hq] at h2; simp at h2

/-- After a successful scheduling run, every declared output is available from
the full plan, the declared inputs, and the bound constants. -/
theorem outputs_avail (g : Graph) (plan : List Nat) (h : schedule g = .ok plan) :
    ∀ o ∈ g.outputs, availB g plan o = true := by
  obtain ⟨_, _, hcov, _, _, hnomiss⟩ := schedule_ok_inv g plan h
  intro o ho
  cases hpos : posOf g.inputs o with
  | some k => simp [availB, hpos]
  | none =>
    cases hd : g.store[o]? with
    | some vd =>
      cases vd with
      | const v => simp [availB, isConstB, hd]
      | app op args =>
        have holt : o < g.store.length := by
          by_contra hcon
          rw [List.getElem?_eq_none (by omega)] at hd
          cases hd
        have hreach : memB (reachAll g) o = true :=
          (memB_iff _ _).2 (reach_self g g.store.length g.outputs o ho)
        have hneed : o ∈ neededNodes g := by
          unfold neededNodes
          rw [List.mem_filter]
          refine ⟨List.mem_range.2 holt, ?_⟩
          simp [hreach, hpos, isAppB, hd]
        have hplan : o ∈ plan := hcov o hneed
        simp [availB, (memB_iff plan o).2 hplan]
      | free t =>
        exfalso
        have hmiss : isMissingB g o = true := by simp [isMissingB, hpos, hd]
        have := List.find?_eq_none.1 hnomiss o
          (reach_self g g.store.length g.outputs o ho)
        simp [hmiss] at this
    | none =>
      exfalso
      have hmiss : isMissingB g o = true := by simp [isMissingB, hpos, hd]
      have := List.find?_eq_none.1 hnomiss o
        (reach_self g g.store.length g.outputs o ho)
      simp [hmiss] at this

/-- A list of handles that each evaluate, evaluates as a list. -/
theorem evalArgsWith_of_forall (ev : Nat → Option Value) :
    ∀ (l : List Nat), (∀ a ∈ l, ∃ v, ev a = some v) →
      ∃ vs, evalArgsWith ev l = some vs ∧
        List.Forall₂ (fun a v => ev a = some v) l vs := by
  intro l
  induction l with
  | nil => intro _; exact ⟨[], rfl, List.Forall₂.nil⟩
  | cons a as ih =>
    intro h
    obtain ⟨v, hv⟩ := h a (List.mem_cons_self _ _)
    obtain ⟨vs, hvs, hf⟩ := ih (fun x hx => h x (List.mem_cons_of_mem _ hx))
    refine ⟨v :: vs, ?_, List.Forall₂.cons hv hf⟩
    show (match ev a, evalArgsWith ev as with
          | some v, some vs => some (v :: vs)
          | _, _ => none) = some (v :: vs)
    rw [hv, hvs]

/-- During plan execution, every available handle has a value that agrees
with direct interpretation. -/
theorem valOf_evals (g : Graph) (vals : List Value) (env : List (Nat × Value))
    (done : List Nat)
    (henv : ∀ p ∈ env, EvalsVar g vals p.1 p.2)
    (hlen : g.inputs.length ≤ vals.length)
    (hdone : ∀ x ∈ done, ∃ v, alook env x = some v)
    (a : Nat) (hav : availB g done a = true) :
    ∃ v, valOf g vals env a = some v ∧ EvalsVar g vals a v := by
  cases hpos : posOf g.inputs a with
  | some k =>
    have hk := posOf_lt _ _ _ hpos
    have hklt : k < vals.length := by omega
    refine ⟨vals[k], ?_, 1, ?_⟩
    · unfold valOf
      rw [hpos]
      exact List.getElem?_eq_getElem hklt
    · show (match posOf g.inputs a with
            | some k => vals[k]?
            | none =>
              match g.store[a]? with
              | some (.free _) => none
              | some (.const v) => some v
              | some (.app op args) =>
                match evalArgsWith (fun x => interpVar g vals 0 x) args with
                | some vs => some (op.exec vs)
                | none => none
              | none => none) = some vals[k]
      rw [hpos]
      exact List.getElem?_eq_getElem hklt
  | none =>
    have hrest : (isConstB g a || memB done a) = true := by
      unfold availB at hav
      rw [hpos] at hav
      simpa using hav
    cases hd : g.store[a]? with
    | some vd =>
      cases vd with
      | const v =>
        refine ⟨v, ?_, 1, ?_⟩
        · unfold valOf
          rw [hpos, hd]
        · show (match posOf g.inputs a with
                | some k => vals[k]?
                | none =>
                  match g.store[a]? with
                  | some (.free _) => none
                  | some (.const v) => some v
                  | some (.app op args) =>
                    match evalArgsWith (fun x => interpVar g vals 0 x) args with
                    | some vs => some (op.exec vs)
                    | none => none
                  | none => none) = some v
          rw [hpos, hd]
      | free t =>
        have hmem : memB done a = true := by
          have hc : isConstB g a = false := by simp [isConstB, hd]
          rw [hc] at hrest
          simpa using hrest
        obtain ⟨v, hv⟩ := hdone a ((memB_iff _ _).1 hmem)
        refine ⟨v, ?_, henv (a, v) (alook_mem _ _ _ hv)⟩
        unfold valOf
        rw [hpos, hd]
        exact hv
      | app op args =>
        have hmem : memB done a = true := by
          have hc : isConstB g a = false := by simp [isConstB, hd]
          rw [hc] at hrest
          simpa using hrest
        obtain ⟨v, hv⟩ := hdone a ((memB_iff _ _).1 hmem)
        refine ⟨v, ?_, henv (a, v) (alook_mem _ _ _ hv)⟩
        unfold valOf
        rw [hpos, hd]
        exact hv
    | none =>
      have hmem : memB done a = true := by
        have hc : isConstB g a = false := by simp [isConstB, hd]
        rw [hc] at hrest
        simpa using hrest
      obtain ⟨v, hv⟩ := hdone a ((memB_iff _ _).1 hmem)
      refine ⟨v, ?_, henv (a, v) (alook_mem _ _ _ hv)⟩
      unfold valOf
      rw [hpos, hd]
      exact hv

/-- Soundness of plan execution: running the remaining plan on top of a
faithful environment executes one operation per plan node and produces
declared-output values that agree with direct interpretation. -/
theorem execPlan_sound_aux (g : Graph) (vals : List Value) :
    ∀ (rest proc : List Nat) (env : List (Nat × Value)) (c : Nat),
      PlanValid g (proc ++ rest) → (proc ++ rest).Nodup →
      (∀ i ∈ proc ++ rest, posOf g.inputs i = none) →
      g.inputs.length ≤ vals.length →
      (∀ p ∈ env, EvalsVar g vals p.1 p.2) →
      (∀ a, a ∈ proc → ∃ v, alook env a = some v) →
      (∀ o ∈ g.outputs, availB g (proc ++ rest) o = true) →
      ∃ outs, execPlan g vals rest env c = (.ok outs, c + rest.length) ∧
        List.Forall₂ (fun o v => EvalsVar g vals o v) g.outputs outs := by
  intro rest
  induction rest with
  | nil =>
    intro proc env c hvalid hnodup hninp hlen henv hcov houts
    rw [List.append_nil] at houts
    have hall : ∀ o ∈ g.outputs,
        ∃ v, valOf g vals env o = some v ∧ EvalsVar g vals o v :=
      fun o ho => valOf_evals g vals env proc henv hlen hcov o (houts o ho)
    obtain ⟨outs, houts2, hf⟩ := evalArgsWith_of_forall (fun o => valOf g vals env o)
      g.outputs (fun a ha => (hall a ha).imp (fun v hv => hv.1))
    refine ⟨outs, ?_, ?_⟩
    · simp only [execPlan, houts2, List.length_nil, Nat.add_zero]
    · refine forall₂_imp_mem _ _ _ _ hf ?_
      intro o v ho hov
      obtain ⟨v2, hv2, hev2⟩ := hall o ho
      rw [hov] at hv2
      have : v = v2 := by
        have := hv2
        simp at this
        exact this
      rw [this]
      exact hev2
  | cons i rest' ih =>
    intro proc env c hvalid hnodup hninp hlen henv hcov houts
    have hgot : (proc ++ i :: rest')[proc.length]? = some i := by
      rw [List.getElem?_append_right (le_refl _)]
      simp
    obtain ⟨op, args, hdef, hargs⟩ := hvalid proc.length i hgot
    have htake : (proc ++ i :: rest').take proc.length = proc := by
      rw [List.take_append_of_le_length (le_refl _), List.take_length]
    have hargav : ∀ a ∈ args, availB g proc a = true := by
      intro a ha
      have := hargs a ha
      rw [htake] at this
      exact this
    have hall : ∀ a ∈ args, ∃ v, valOf g vals env a = some v ∧ EvalsVar g vals a v :=
      fun a ha => valOf_evals g vals env proc henv hlen hcov a (hargav a ha)
    obtain ⟨avs, havs, hfargs⟩ := evalArgsWith_of_forall (fun a => valOf g vals env a)
      args (fun a ha => (hall a ha).imp (fun v hv => hv.1))
    have hfargs2 : List.Forall₂ (fun a v => EvalsVar g vals a v) args avs := by
      refine forall₂_imp_mem _ _ _ _ hfargs ?_
      intro a v ha hav
      obtain ⟨v2, hv2, hev2⟩ := hall a ha
      rw [hav] at hv2
      have : v = v2 := by
        have := hv2
        simp at this
        exact this
      rw [this]
      exact hev2
    obtain ⟨fz, hfz⟩ := forall₂_evals_fuel g vals args avs hfargs2
    have himem : i ∈ proc ++ i :: rest' :=
      List.mem_append.2 (Or.inr (List.mem_cons_self _ _))
    have hevi : EvalsVar g vals i (op.exec avs) := by
      refine ⟨fz + 1, ?_⟩
      show (match posOf g.inputs i with
            | some k => vals[k]?
            | none =>
              match g.store[i]? with
              | some (.free _) => none
              | some (.const v) => some v
              | some (.app op args) =>
                match evalArgsWith (fun x => interpVar g vals fz x) args with
                | some vs => some (op.exec vs)
                | none => none
              | none => none) = some (op.exec avs)
      rw [hninp i himem, hdef]
      show (match evalArgsWith (fun x => interpVar g vals fz x) args with
            | some vs => some (op.exec vs)
            | none => none) = some (op.exec avs)
      rw [hfz]
    have hplan' : proc ++ i :: rest' = (proc ++ [i]) ++ rest' := by simp
    have hdisj : ∀ a ∈ proc, a ≠ i := by
      obtain ⟨_, _, hdj⟩ := List.nodup_append.1 hnodup
      intro a ha hcon
      exact hdj ha (by rw [hcon]; exact List.mem_cons_self _ _)
    obtain ⟨outs, hexec, hf⟩ := ih (proc ++ [i]) ((i, op.exec avs) :: env) (c + 1)
      (by rw [← hplan']; exact hvalid)
      (by rw [← hplan']; exact hnodup)
      (by rw [← hplan']; exact hninp)
      hlen
      (by
        intro p hp
        cases hp with
        | head => exact hevi
        | tail _ hp' => exact henv p hp')
      (by
        intro a ha
        rw [List.mem_append] at ha
        cases ha with
        | inl ha' =>
          obtain ⟨v, hv⟩ := hcov a ha'
          refine ⟨v, ?_⟩
          show alook ((i, op.exec avs) :: env) a = some v
          unfold alook
          rw [if_neg (fun hcon => (hdisj a ha') hcon.symm)]
          exact hv
        | inr ha' =>
          rw [List.mem_singleton] at ha'
          subst ha'
          refine ⟨op.exec avs, ?_⟩
          show alook ((a, op.exec avs) :: env) a = some (op.exec avs)
          unfold alook
          rw [if_pos rfl])
      (by rw [← hplan']; exact houts)
    refine ⟨outs, ?_, hf⟩
    have hstep : execPlan g vals (i :: rest') env c =
        execPlan g vals rest' ((i, op.exec avs) :: env) (c + 1) := by
      simp only [execPlan, hdef, havs]
    rw [hstep, hexec]
    have hlen2 : c + 1 + rest'.length = c + (i :: rest').length := by
      simp only [List.length_cons]
      omega
    rw [hlen2]

/-- C1: semantic preservation of compilation: whenever the direct,
unrewritten interpretation of the user graph on concrete input values yields
output values, compiling the graph with any mode whose registered rules are
locally sound and invoking the resulting callable on the same values yields
exactly those output values, in declared output order. -/
theorem c1_compile_preserves_interpretation (mode : Mode) (g : Graph)
    (vals outs : List Value) (c : Callable)
    (hsound : ∀ r ∈ allRules mode, SoundRule r)
    (hc : (compile mode g).result = .ok c)
    (hint : interpret g vals = some outs) :
    (invoke c vals).1 = .ok outs := by
  obtain ⟨hnd, gc, conv, hclone, hrun, hsched, htys⟩ := compile_ok_inv mode g c hc
  obtain ⟨htyped, hevals⟩ := interpret_some_inv g vals outs hint
  obtain ⟨hsig1, hpres1⟩ := cloneGraph_pres g gc hclone
  have hsound' : ∀ rules ∈ mode.pipeline, ∀ r ∈ rules, SoundRule r := by
    intro rules hrs r hr
    refine hsound r ?_
    unfold allRules
    exact List.mem_flatten.2 ⟨rules, hrs, hr⟩
  obtain ⟨hsig2, hpres2⟩ := runEngine_pres mode.pipeline mode.maxRewriteIterations
    hsound' gc c.graph conv hrun
  have hsig : inputSig c.graph = inputSig g := by rw [hsig2, hsig1]
  have hevalsF : EvalsOuts c.graph vals outs := hpres2 vals outs (hpres1 vals outs hevals)
  obtain ⟨hvalid, hnodup, hcov, hsub, hnocyc, hnomiss⟩ :=
    schedule_ok_inv c.graph c.plan hsched
  have hninp : ∀ i ∈ c.plan, posOf c.graph.inputs i = none :=
    fun i hi => neededNodes_noninput c.graph i (hsub i hi)
  have houtav : ∀ o ∈ c.graph.outputs, availB c.graph c.plan o = true :=
    outputs_avail c.graph c.plan hsched
  have hlen : c.graph.inputs.length ≤ vals.length := by
    have h1 := valsTyped_length vals (inputSig g) htyped
    rw [← hsig] at h1
    have h2 : (inputSig c.graph).length = c.graph.inputs.length := by
      unfold inputSig
      simp
    omega
  obtain ⟨outs2, hexec, hf⟩ := execPlan_sound_aux c.graph vals c.plan [] [] 0
    hvalid hnodup hninp hlen
    (fun p hp => absurd hp (List.not_mem_nil _))
    (fun a ha => absurd ha (List.not_mem_nil _))
    houtav
  have houts2 : EvalsOuts c.graph vals outs2 :=
    forall₂_evals_fuel c.graph vals c.graph.outputs outs2 hf
  have heq : outs2 = outs := evalsOuts_det c.graph vals outs2 outs houts2 hevalsF
  have htyc : valsTyped vals c.inTys = true := by
    rw [htys, hsig]
    exact htyped
  unfold invoke
  rw [if_pos htyc, hexec]
  rw [heq]

/-- Witness for C1: compiling `x + y` (no rewrite passes, so every registered
rule is vacuously sound) and invoking on `x = 2, y = 3` returns exactly the
directly interpreted output `[5]`. -/
theorem c1_compile_preserves_interpretation_witness :
    interpret gAdd [Value.vnat 2, Value.vnat 3] = some [Value.vnat 5] ∧
    (invoke cAdd [Value.vnat 2, Value.vnat 3]).1 = .ok [Value.vnat 5] :=
  ⟨rfl, c1_compile_preserves_interpretation mEmpty gAdd
    [Value.vnat 2, Value.vnat 3] [Value.vnat 5] cAdd
    (fun _ hr => absurd hr (List.not_mem_nil _)) rfl rfl⟩

end AesaraSpec
